import Mathlib

/-!
Verification of the semantic-cache and multi-hop orchestration core of a
DuckDuckGo search MCP server.  The Lean definitions below are a shallow
embedding of `mcp_duckduckgo/semantic_cache.py`, `mcp_duckduckgo/search.py`
and `mcp_duckduckgo/orchestration/flow.py`; the theorems settle the frozen
claims about key construction, TTL freshness, LRU eviction, the search
workflow glue, plan validation/topological ordering and the hop executor.
-/

/-- The fixed intent enumeration (`SearchIntent` literal type in
`mcp_duckduckgo/models.py`). -/
inductive SearchIntent where
  | news
  | technical
  | shopping
  | academic
  | finance
  | local
  | general
deriving DecidableEq, Repr, Fintype

/-- The literal string carried by each `SearchIntent` value (in Python the
intent *is* this string). -/
def SearchIntent.toStr : SearchIntent → String
  | .news => "news"
  | .technical => "technical"
  | .shopping => "shopping"
  | .academic => "academic"
  | .finance => "finance"
  | .local => "local"
  | .general => "general"

/-- Decimal digit character: `digitChar d` is the ASCII digit for `d < 10`. -/
def digitChar (d : Nat) : Char := Char.ofNat (48 + d)

/-- Most-significant-first decimal digits of `n` (empty for 0); the `fuel`
argument only bounds the recursion depth, any `fuel ≥ n` is exact. -/
def natDigits : Nat → Nat → List Char
  | 0, _ => []
  | fuel + 1, n =>
    if n = 0 then [] else natDigits fuel (n / 10) ++ [digitChar (n % 10)]

/-- Decimal string representation of a natural number — the embedding of
Python `str(n)` for the non-negative integers appearing in cache keys. -/
def natStr (n : Nat) : String :=
  if n = 0 then "0" else ⟨natDigits n n⟩

/-- Python truthiness encoding `site or "*"` / `time_period or "*"`:
`None` and the empty string collapse to the wildcard sentinel. -/
def encodeOptStr : Option String → String
  | none => "*"
  | some v => if v = "" then "*" else v

/-- The tuple of keyed parameters of `SemanticCache.make_key`
(`semantic_cache.py` lines 101-141). -/
structure KeyParams where
  intent : SearchIntent
  embedding_signature : String
  count : Nat
  offset : Nat
  page : Nat
  site : Option String
  time_period : Option String
  related : Bool
  related_count : Option Nat
deriving DecidableEq, Repr

/-- `SemanticCache.make_key`: join the encoded fields with `"|"`, exactly as
the source builds `parts` and returns `"|".join(parts)`. -/
def make_key (p : KeyParams) : String :=
  String.intercalate "|"
    [ p.intent.toStr
    , p.embedding_signature
    , natStr p.count
    , natStr p.offset
    , natStr p.page
    , encodeOptStr p.site
    , encodeOptStr p.time_period
    , if p.related then "related" else "plain"
    , natStr (p.related_count.getD 0) ]

/-- The encoded field tuple that `make_key` serialises: optional `site` /
`time_period` become the wildcard sentinel, absent `related_count` becomes 0
(Python `x or 0`). -/
def KeyParams.encoded (p : KeyParams) :
    SearchIntent × String × Nat × Nat × Nat × String × String × Bool × Nat :=
  (p.intent, p.embedding_signature, p.count, p.offset, p.page,
    encodeOptStr p.site, encodeOptStr p.time_period, p.related,
    p.related_count.getD 0)

/-- A string is separator-free when it does not contain the `'|'` join
character (the spec fixes a "separator not expected in any field value"). -/
def noSep (s : String) : Prop := ¬ ('|' ∈ s.data)

instance (s : String) : Decidable (noSep s) := by unfold noSep; infer_instance

/-- Validity of a key-parameter tuple: the free-form string fields carry no
separator character (after Python truthiness encoding). -/
def KeyParams.valid (p : KeyParams) : Prop :=
  noSep p.embedding_signature ∧ noSep (encodeOptStr p.site) ∧
    noSep (encodeOptStr p.time_period)

instance (p : KeyParams) : Decidable p.valid := by
  unfold KeyParams.valid; infer_instance

/-! ## Semantic cache (`mcp_duckduckgo/semantic_cache.py`)

Timestamps are modelled as natural-number seconds; `time.time()` becomes an
explicit `now` argument threaded through `get`/`set`.  The `OrderedDict`
store is a key-entry association list ordered least-recently-used first
(Python's insertion order: `popitem(last=False)` pops the head,
`move_to_end` moves a key to the tail). -/

/-- One search-result record, as far as the cache/merge logic inspects it:
the `url` and `domain` fields (possibly missing or empty) plus the rest of
the record collapsed into an opaque `body`. -/
structure SearchResult where
  url : Option String
  domain : Option String
  body : String
deriving DecidableEq, Repr

/-- Cache metadata attached to returned payloads (`cache_metadata` dict):
a status string and an optional age in seconds. -/
structure CacheMeta where
  status : String
  age_seconds : Option Nat
deriving DecidableEq, Repr

/-- A search response payload, as far as the cache and glue inspect it:
the result list and optional cache metadata (other payload dict fields are
opaque to the cache/merge logic). -/
structure Payload where
  results : List SearchResult
  cache_metadata : Option CacheMeta
deriving DecidableEq, Repr

/-- `INTENT_TTL_SECONDS` lookup (total over the intent enumeration, with
the `.get(..., general)` default unreachable). -/
def intentTTL : SearchIntent → Nat
  | .news => 15 * 60
  | .technical => 24 * 60 * 60
  | .shopping => 6 * 60 * 60
  | .academic => 36 * 60 * 60
  | .finance => 3 * 60 * 60
  | .local => 2 * 60 * 60
  | .general => 6 * 60 * 60

/-- `CacheEntry` dataclass. -/
structure CacheEntry where
  key : String
  intent : SearchIntent
  embedding_signature : String
  payload : Payload
  created_at : Nat
deriving DecidableEq, Repr

/-- `entry.age_seconds` at clock value `now` (code: `time.time() - created_at`). -/
def CacheEntry.age_seconds (e : CacheEntry) (now : Nat) : Nat :=
  now - e.created_at

/-- `CacheLookup` dataclass. -/
structure CacheLookup where
  payload : Payload
  age_seconds : Nat
  fresh : Bool
deriving DecidableEq, Repr

/-- The `OrderedDict` store: least-recently-used entry first. -/
abbrev Store := List (String × CacheEntry)

/-- Keys of the store in recency order (oldest first). -/
def storeKeys (s : Store) : List String := s.map (·.1)

/-- Dictionary lookup `self._store.get(key)`. -/
def storeFind (s : Store) (key : String) : Option CacheEntry :=
  (s.find? (fun p => p.1 = key)).map (·.2)

/-- Deletion of a key from the store (at most one entry per key exists). -/
def storeErase (s : Store) (key : String) : Store :=
  s.filter (fun p => p.1 ≠ key)

/-- `OrderedDict.move_to_end(key)`: move the entry for `key` to the
most-recently-used (tail) position. -/
def moveToEnd (s : Store) (key : String) : Store :=
  match s.find? (fun p => p.1 = key) with
  | none => s
  | some p => storeErase s key ++ [p]

/-- `SemanticCache._evict_if_needed`: pop the least-recently-used entry
(head) while the store holds more than `maxEntries` entries. -/
def evictIfNeeded (maxEntries : Nat) : Store → Store
  | [] => []
  | a :: t =>
    if (a :: t).length ≤ maxEntries then a :: t else evictIfNeeded maxEntries t

/-- `SemanticCache.get(key, intent)` at clock `now`: returns the lookup
(payload deep copy, age, freshness) and the updated store (a fresh hit is
moved to the most-recently-used slot; a stale hit is not). -/
def cacheGet (s : Store) (key : String) (intent : SearchIntent) (now : Nat) :
    Option CacheLookup × Store :=
  match storeFind s key with
  | none => (none, s)
  | some e =>
    let fresh := e.age_seconds now ≤ intentTTL intent
    (some ⟨e.payload, e.age_seconds now, fresh⟩,
      if fresh then moveToEnd s key else s)

/-- `SemanticCache.set(key, intent=…, embedding_signature=…, payload=…)` at
clock `now` for a cache of capacity `maxEntries`: replace any existing entry
for `key`, place it most-recently-used, then evict while over capacity. -/
def cacheSet (maxEntries : Nat) (s : Store) (key : String)
    (intent : SearchIntent) (embedding_signature : String)
    (payload : Payload) (now : Nat) : Store :=
  evictIfNeeded maxEntries
    (storeErase s key ++ [(key, ⟨key, intent, embedding_signature, payload, now⟩)])

/-! ## Search workflow glue (`mcp_duckduckgo/search.py`)

`duckduckgo_search` is embedded as the pure decision core around the cache:
the external fetch + parse + rerank collaborator is abstracted into the
`freshResults` argument (the reranked fresh result list it would produce),
and a `fetched` flag records whether that collaborator ran.  Payload fields
the cache/merge logic never consults (`total_results`, `intent`,
`related_searches`) are elided; the related-searches branch is orthogonal
to the claims and omitted. -/

/-- Python truthiness of a result's `url` field (`if not url: continue`):
a missing or empty url is falsy. -/
def urlTruthy : Option String → Bool
  | none => false
  | some u => u != ""

/-- The loop body of `_merge_results`: walk the concatenated list, skip
records without a truthy `url`, skip urls already seen, keep the rest. -/
def mergeLoop : List SearchResult → List String → List SearchResult
  | [], _ => []
  | r :: rest, seen =>
    match r.url with
    | none => mergeLoop rest seen
    | some u =>
      if u = "" then mergeLoop rest seen
      else if u ∈ seen then mergeLoop rest seen
      else r :: mergeLoop rest (u :: seen)

/-- `_merge_results(primary, secondary)`. -/
def mergeResults (primary secondary : List SearchResult) : List SearchResult :=
  mergeLoop (primary ++ secondary) []

/-- Modelled from the spec: "concatenate `freshResults` followed by
`cachedPayload.results`, then deduplicate by URL, preserving first
occurrence" — plain first-occurrence deduplication on the raw `url` value,
with no record dropped.  Used only to compare the spec's merge policy with
the implementation's `_merge_results`. -/
def specDedupByUrl : List SearchResult → List (Option String) → List SearchResult
  | [], _ => []
  | r :: rest, seen =>
    if r.url ∈ seen then specDedupByUrl rest seen
    else r :: specDedupByUrl rest (r.url :: seen)

/-- Modelled from the spec: the spec's merge policy (§4.4 step 6). -/
def specMerge (freshResults cachedResults : List SearchResult) : List SearchResult :=
  specDedupByUrl (freshResults ++ cachedResults) []

/-- The implementation's merge: keep truthy-url records of
fresh-then-cached, deduplicated by URL, first occurrence preserved. -/
def specMergeTruthy (freshResults cachedResults : List SearchResult) :
    List SearchResult :=
  specDedupByUrl
    ((freshResults ++ cachedResults).filter (fun r => urlTruthy r.url)) []

/-- Outcome of one glue invocation: the returned payload, the cache store
after the call, and whether the external fetch collaborator ran. -/
structure GlueResult where
  payload : Payload
  store : Store
  fetched : Bool
deriving DecidableEq, Repr

/-- The miss/stale continuation of `duckduckgo_search` (lines 383-445):
merge fresh results with any stale cached results, annotate with
`refresh`/`miss` cache metadata, store the payload, return it. -/
def fetchAndStore (maxEntries : Nat) (store : Store) (key : String)
    (intent : SearchIntent) (embedding_signature : String) (now : Nat)
    (freshResults : List SearchResult) (cachedPayload : Option Payload)
    (cachedAge : Option Nat) : GlueResult :=
  let payload_results :=
    match cachedPayload with
    | some cp => if cp.results ≠ [] then mergeResults freshResults cp.results
                 else freshResults
    | none => freshResults
  let meta : CacheMeta :=
    match cachedPayload with
    | some _ => ⟨"refresh", cachedAge⟩
    | none => ⟨"miss", some 0⟩
  let payload : Payload := ⟨payload_results, some meta⟩
  { payload := payload
    store := cacheSet maxEntries store key intent embedding_signature payload now
    fetched := true }

/-- The cache-consulting core of `duckduckgo_search` (lines 180-197 plus the
fetch continuation): on a fresh hit return the cached payload annotated as a
hit without fetching; otherwise fetch, merge, annotate and store. -/
def searchWorkflow (maxEntries : Nat) (store : Store) (key : String)
    (intent : SearchIntent) (embedding_signature : String) (now : Nat)
    (freshResults : List SearchResult) : GlueResult :=
  match cacheGet store key intent now with
  | (some lookup, store1) =>
    if lookup.fresh then
      { payload := { lookup.payload with
                     cache_metadata := some ⟨"hit", some lookup.age_seconds⟩ }
        store := store1
        fetched := false }
    else
      fetchAndStore maxEntries store1 key intent embedding_signature now
        freshResults (some lookup.payload) (some lookup.age_seconds)
  | (none, store1) =>
      fetchAndStore maxEntries store1 key intent embedding_signature now
        freshResults none none

/-! ## Multi-hop orchestration (`mcp_duckduckgo/orchestration/flow.py`)

Python values flowing between hops are modelled by a small universal value
type `Val`; exceptions become `Except String`; a registered tool is its
declared parameter-name list (`inspect.signature`) plus a function from
invocation parameters to either an exception or an output value together
with the final contents of the dict bound to its `state` parameter. -/

/-- Universal value type for hop parameters and outputs. -/
inductive Val where
  | str : String → Val
  | nat : Nat → Val
  | dict : List (String × Val) → Val
  | ctxHandle : Val
deriving BEq, Repr

/-- `Hop` dataclass. -/
structure Hop where
  name : String
  tool : String
  params : List (String × Val)
  depends_on : List String
deriving Repr

/-- `HopResult` dataclass; its `metadata` dict is the two fixed entries. -/
structure HopResult where
  hop : Hop
  output : Val
  meta_dependencies : List String
  meta_tool : String
deriving Repr

/-- One record of the `trace` list. -/
structure TraceEntry where
  hop : String
  tool : String
  depends_on : List String
deriving DecidableEq, Repr

/-- Names of the declared hops. -/
def hopNames (hops : List Hop) : List String := hops.map (·.name)

/-- One `for name, hop in list(pending.items())` scan of
`MultiHopPlan._topological_sort`: hops whose dependencies are all resolved
are appended to the schedule and resolved immediately (the `resolved` set
grows during the scan); the rest stay pending, in order.  Returns
(scheduled, resolved after the scan, still pending). -/
def onePass : List Hop → List String → List Hop × List String × List Hop
  | [], resolved => ([], resolved, [])
  | h :: rest, resolved =>
    if h.depends_on.all (fun d => d ∈ resolved) then
      let t := onePass rest (h.name :: resolved)
      (h :: t.1, t.2.1, t.2.2)
    else
      let t := onePass rest resolved
      (t.1, t.2.1, h :: t.2.2)

/-- The scheduled and pending parts of a scan split the input. -/
theorem onePass_length (pending : List Hop) (resolved : List String) :
    (onePass pending resolved).1.length + (onePass pending resolved).2.2.length
      = pending.length := by
  induction pending generalizing resolved with
  | nil => simp [onePass]
  | cons h rest ih =>
    simp only [onePass]
    split
    · have := ih (h.name :: resolved)
      simp only [List.length_cons]
      omega
    · have := ih resolved
      simp only [List.length_cons]
      omega

/-- The `while pending:` loop of `_topological_sort`: scan until nothing is
pending, failing when a full scan makes no progress. -/
def topoSortGo (pending : List Hop) (resolved : List String) :
    Except String (List Hop) :=
  match hp : pending with
  | [] => .ok []
  | _ :: _ =>
    let t := onePass pending resolved
    if hs : t.1.isEmpty then .error "Cycle detected in hop dependencies"
    else (topoSortGo t.2.2 t.2.1).map (t.1 ++ ·)
termination_by pending.length
decreasing_by
  have hlen := onePass_length pending resolved
  have hne : (onePass pending resolved).1 ≠ [] := by
    intro h
    apply hs
    show (onePass pending resolved).1.isEmpty = true
    rw [h]
    rfl
  have hpos : 0 < (onePass pending resolved).1.length :=
    List.length_pos.mpr hne
  rw [← hp]
  omega

/-- `MultiHopPlan.__init__`: the validation checks in order (empty plan,
duplicate names, unknown dependency references), then the topological sort;
returns the computed hop order. -/
def mkPlan (hops : List Hop) : Except String (List Hop) :=
  if hops.isEmpty then .error "MultiHopPlan requires at least one hop"
  else if ¬ (hopNames hops).Nodup then .error "Hop names must be unique"
  else if hops.any (fun h => h.depends_on.any (fun d => d ∉ hopNames hops)) then
    .error "depends on unknown hops"
  else topoSortGo hops []

/-- A state dict (the `shared_state` mapping). -/
abbrev StateDict := List (String × Val)

/-- A registered tool: its declared parameter names
(`inspect.signature(tool_callable).parameters`) and its behaviour — from
invocation parameters to an exception, or an output value together with the
final contents of the dict object that was bound to its `state` parameter. -/
structure Tool where
  sig : List String
  run : List (String × Val) → Except String (Val × StateDict)

/-- The tool registry (`MultiHopOrchestrator._tools`). -/
abbrev ToolRegistry := List (String × Tool)

/-- `MultiHopOrchestrator._resolve_tool` without the raise: dictionary
lookup, `none` when the tool is not registered. -/
def lookupTool (reg : ToolRegistry) (name : String) : Option Tool :=
  (reg.find? (fun p => p.1 = name)).map (·.2)

/-- Dictionary lookup in a parameter/state mapping. -/
def pLookup (ps : List (String × Val)) (n : String) : Option Val :=
  (ps.find? (fun p => p.1 = n)).map (·.2)

/-- `MultiHopOrchestrator._build_invocation_params`: start from the hop's
declared params, then inject `ctx`, `dependencies` and `state` in that
order, each only when the tool declares that parameter name and the hop's
params do not already bind it. -/
def buildInvocationParams (sig : List String) (hop : Hop) (ctx : Val)
    (depOutputs : List (String × Val)) (state : StateDict) :
    List (String × Val) :=
  let params := hop.params
  let params := if "ctx" ∈ sig ∧ (pLookup params "ctx").isNone then
      params ++ [("ctx", ctx)] else params
  let params := if "dependencies" ∈ sig ∧ (pLookup params "dependencies").isNone then
      params ++ [("dependencies", Val.dict depOutputs)] else params
  let params := if "state" ∈ sig ∧ (pLookup params "state").isNone then
      params ++ [("state", Val.dict state)] else params
  params

/-- `{name: results[name].output for name in hop.depends_on}`; `none` models
the `KeyError` Python would raise on a missing dependency result. -/
def extractDeps (results : List (String × HopResult)) :
    List String → Option (List (String × Val))
  | [] => some []
  | n :: rest =>
    match results.find? (fun p => p.1 = n) with
    | none => none
    | some pr => (extractDeps results rest).map (fun l => (n, pr.2.output) :: l)

/-- `state = shared_state or {}` (Python truthiness: `None` and the empty
dict are falsy).  Returns the working dict and whether it is the caller's
own dict object (aliased) rather than a fresh one. -/
def resolveState : Option StateDict → StateDict × Bool
  | none => ([], false)
  | some d => if d.isEmpty then ([], false) else (d, true)

/-- The caller's view of the dict it passed as `shared_state` once `execute`
returns: mutated in place only when the run's working dict was the caller's
own object. -/
def callerVisibleState (sharedState : Option StateDict)
    (finalState : StateDict) : Option StateDict :=
  match sharedState with
  | none => none
  | some d => if (resolveState (some d)).2 then some finalState else some d

/-- Successful outcome of `MultiHopOrchestrator.execute`: the
`OrchestrationResult` plus the final contents of the working state dict. -/
structure ExecOutcome where
  results : List (String × HopResult)
  trace : List TraceEntry
  finalState : StateDict

/-- The invocation log: which hops' tools were actually called, with which
invocation parameters, in order.  (An observation of the side effects;
Python has no such value.) -/
abbrev InvLog := List (String × List (String × Val))

/-- The `for hop in plan.ordered_hops():` loop of `execute`: resolve the
tool, gather dependency outputs, build invocation params, invoke, record
the `HopResult` and trace entry; any exception aborts the loop and
propagates.  The state dict after the call replaces the working state
exactly when the tool was handed the working dict itself (it declares
`state` and the hop's params do not shadow it). -/
def executeAux (reg : ToolRegistry) (ctx : Val) :
    List Hop → List (String × HopResult) → List TraceEntry → StateDict →
    InvLog × Except String ExecOutcome
  | [], results, trace, state => ([], .ok ⟨results, trace, state⟩)
  | hop :: rest, results, trace, state =>
    match lookupTool reg hop.tool with
    | none => ([], .error ("Tool '" ++ hop.tool ++ "' is not registered"))
    | some tool =>
      match extractDeps results hop.depends_on with
      | none => ([], .error "KeyError")
      | some depOutputs =>
        let ps := buildInvocationParams tool.sig hop ctx depOutputs state
        match tool.run ps with
        | .error e => ([(hop.name, ps)], .error e)
        | .ok (out, stateAfter) =>
          let newState :=
            if "state" ∈ tool.sig ∧ (pLookup hop.params "state").isNone then
              stateAfter else state
          let t := executeAux reg ctx rest
            (results ++ [(hop.name, ⟨hop, out, hop.depends_on, hop.tool⟩)])
            (trace ++ [⟨hop.name, hop.tool, hop.depends_on⟩]) newState
          ((hop.name, ps) :: t.1, t.2)

/-- `MultiHopOrchestrator.execute(plan, ctx, shared_state=…)` over the
plan's precomputed hop order. -/
def execute (reg : ToolRegistry) (ctx : Val) (orderedHops : List Hop)
    (sharedState : Option StateDict) : InvLog × Except String ExecOutcome :=
  executeAux reg ctx orderedHops [] [] (resolveState sharedState).1

/-- Construct a plan and, only if construction succeeds, execute it. -/
def runPlan (reg : ToolRegistry) (ctx : Val) (hops : List Hop)
    (sharedState : Option StateDict) : InvLog × Except String ExecOutcome :=
  match mkPlan hops with
  | .error e => ([], .error e)
  | .ok ordered => execute reg ctx ordered sharedState

/-- Parse a decimal digit string back to a natural number (proof tool for
the injectivity of `natStr`). -/
def parseNat (l : List Char) : Nat :=
  l.foldl (fun acc c => acc * 10 + (c.toNat - 48)) 0

/-- The nine joined components of `make_key`, as character lists. -/
def partsOf (p : KeyParams) : List (List Char) :=
  [ p.intent.toStr.data
  , p.embedding_signature.data
  , (natStr p.count).data
  , (natStr p.offset).data
  , (natStr p.page).data
  , (encodeOptStr p.site).data
  , (encodeOptStr p.time_period).data
  , (if p.related then "related" else "plain").data
  , (natStr (p.related_count.getD 0)).data ]

/-- Fold `cacheSet` over a list of keys (repeated insertions with a common
intent/signature/payload/clock), starting from a given store. -/
def setMany (maxEntries : Nat) (s : Store) (ks : List String)
    (intent : SearchIntent) (sig : String) (payload : Payload)
    (now : Nat) : Store :=
  ks.foldl (fun acc k => cacheSet maxEntries acc k intent sig payload now) s

/-- All dependency references name a declared hop. -/
def depsKnown (hops : List Hop) : Prop :=
  ∀ h ∈ hops, ∀ d ∈ h.depends_on, d ∈ hopNames hops

/-- `validOrder resolved l`: scanning `l` left to right, every hop's
dependencies are already resolved or declared by an earlier hop of `l` —
i.e. `l` is a topological order relative to the initially resolved names. -/
def validOrder : List String → List Hop → Prop
  | _, [] => True
  | resolved, h :: rest =>
    (∀ d ∈ h.depends_on, d ∈ resolved) ∧ validOrder (h.name :: resolved) rest

/-- The resolved-name set after scheduling all of `l` (in scan order). -/
def accNames (l : List Hop) (res : List String) : List String :=
  l.foldl (fun r h => h.name :: r) res

/-- A topological order of the declared hops exists. -/
def HasTopoOrder (hops : List Hop) : Prop :=
  ∃ l, l.Perm hops ∧ validOrder [] l

/-! ## Claims -/

/-- C2: for every stored entry, `get(key, intent)` returns a lookup whose
`fresh` flag equals `age_seconds <= ttl(intent)`, with the TTL taken from
the per-intent table (news 900, technical 86400, shopping 21600, academic
129600, finance 10800, local 7200, general 21600); a news entry is fresh at
age exactly 900 and stale at 901; a fresh get moves the entry to the
most-recently-used end of the recency order while a stale get leaves the
order unchanged. -/
theorem get_freshness_and_recency (s : Store) (key : String)
    (intent : SearchIntent) (now : Nat) (e : CacheEntry)
    (hfind : storeFind s key = some e) :
    ∃ lk : CacheLookup, (cacheGet s key intent now).1 = some lk ∧
      (lk.fresh = true ↔ e.age_seconds now ≤ intentTTL intent) ∧
      lk.age_seconds = e.age_seconds now ∧
      lk.payload = e.payload ∧
      (cacheGet s key intent now).2 =
        (if lk.fresh then moveToEnd s key else s) ∧
      (intentTTL .news = 900 ∧ intentTTL .technical = 86400 ∧
        intentTTL .shopping = 21600 ∧ intentTTL .academic = 129600 ∧
        intentTTL .finance = 10800 ∧ intentTTL .local = 7200 ∧
        intentTTL .general = 21600) ∧
      (intent = .news → now = e.created_at + 900 → lk.fresh = true) ∧
      (intent = .news → now = e.created_at + 901 → lk.fresh = false) := by
  refine ⟨⟨e.payload, e.age_seconds now,
    decide (e.age_seconds now ≤ intentTTL intent)⟩, ?_, ?_, rfl, rfl, ?_, ?_, ?_, ?_⟩
  · simp [cacheGet, hfind]
  · simp
  · simp [cacheGet, hfind]
  · exact ⟨rfl, rfl, rfl, rfl, rfl, rfl, rfl⟩
  · intro hi hnow
    subst hi hnow
    simp [CacheEntry.age_seconds, intentTTL]
  · intro hi hnow
    subst hi hnow
    simp [CacheEntry.age_seconds, intentTTL]

/-- Concrete instantiation of `get_freshness_and_recency`. -/
theorem get_freshness_and_recency_witness :
    storeFind [("k", ⟨"k", .news, "sig", ⟨[], none⟩, 0⟩)] "k" =
      some ⟨"k", .news, "sig", ⟨[], none⟩, 0⟩ ∧
    ∃ lk : CacheLookup,
      (cacheGet [("k", ⟨"k", .news, "sig", ⟨[], none⟩, 0⟩)] "k" .news 900).1 =
        some lk ∧
      (lk.fresh = true ↔
        CacheEntry.age_seconds ⟨"k", .news, "sig", ⟨[], none⟩, 0⟩ 900 ≤
          intentTTL .news) ∧
      lk.age_seconds = CacheEntry.age_seconds ⟨"k", .news, "sig", ⟨[], none⟩, 0⟩ 900 ∧
      lk.payload = Payload.mk [] none ∧
      (cacheGet [("k", ⟨"k", .news, "sig", ⟨[], none⟩, 0⟩)] "k" .news 900).2 =
        (if lk.fresh then moveToEnd [("k", ⟨"k", .news, "sig", ⟨[], none⟩, 0⟩)] "k"
          else [("k", ⟨"k", .news, "sig", ⟨[], none⟩, 0⟩)]) ∧
      (intentTTL .news = 900 ∧ intentTTL .technical = 86400 ∧
        intentTTL .shopping = 21600 ∧ intentTTL .academic = 129600 ∧
        intentTTL .finance = 10800 ∧ intentTTL .local = 7200 ∧
        intentTTL .general = 21600) ∧
      (SearchIntent.news = .news → 900 = (0 : Nat) + 900 → lk.fresh = true) ∧
      (SearchIntent.news = .news → 900 = (0 : Nat) + 901 → lk.fresh = false) :=
  ⟨by decide, get_freshness_and_recency _ "k" .news 900 _ (by decide)⟩

/-- C10: `execute` resolves `shared_state or {}` by Python truthiness, so a
caller-supplied *empty* mapping is replaced by a fresh internal dict and hop
writes are never visible in the caller's empty mapping after `execute`
returns; only a non-empty caller-supplied mapping is shared by reference. -/
theorem empty_sharedState_not_aliased (reg : ToolRegistry) (ctx : Val)
    (hops : List Hop) (outcome : ExecOutcome) :
    resolveState (some []) = ([], false) ∧
    ((execute reg ctx hops (some [])).2 = .ok outcome →
      callerVisibleState (some []) outcome.finalState = some []) ∧
    (∀ d : StateDict, d ≠ [] →
      resolveState (some d) = (d, true) ∧
      callerVisibleState (some d) outcome.finalState = some outcome.finalState) := by
  refine ⟨rfl, fun _ => rfl, fun d hd => ?_⟩
  have hde : d.isEmpty = false := by
    cases d with
    | nil => exact absurd rfl hd
    | cons a t => rfl
  constructor
  · simp [resolveState, hde]
  · simp [callerVisibleState, resolveState, hde]

/-- Concrete instantiation of `empty_sharedState_not_aliased`: a hop whose
tool writes to its injected `state` dict, run with `shared_state = {}`; the
caller's empty dict stays empty. -/
theorem empty_sharedState_not_aliased_witness :
    callerVisibleState (some [])
      (ExecOutcome.finalState
        ⟨[("h1", ⟨⟨"h1", "t", [], []⟩, Val.nat 0, [], "t"⟩)],
          [⟨"h1", "t", []⟩], [("x", Val.nat 1)]⟩) = some [] :=
  (empty_sharedState_not_aliased
      [("t", ⟨["state"], fun _ => .ok (Val.nat 0, [("x", Val.nat 1)])⟩)]
      Val.ctxHandle [⟨"h1", "t", [], []⟩]
      ⟨[("h1", ⟨⟨"h1", "t", [], []⟩, Val.nat 0, [], "t"⟩)],
        [⟨"h1", "t", []⟩], [("x", Val.nat 1)]⟩).2.1 rfl

/-- Every record kept by `mergeLoop` has a truthy url. -/
theorem mergeLoop_truthy (l : List SearchResult) (seen : List String)
    (r : SearchResult) (hr : r ∈ mergeLoop l seen) : urlTruthy r.url = true := by
  induction l generalizing seen with
  | nil => simp [mergeLoop] at hr
  | cons a rest ih =>
    simp only [mergeLoop] at hr
    cases ha : a.url with
    | none => rw [ha] at hr; exact ih seen hr
    | some u =>
      rw [ha] at hr
      dsimp only at hr
      by_cases hu : u = ""
      · rw [if_pos hu] at hr; exact ih seen hr
      · rw [if_neg hu] at hr
        by_cases hseen : u ∈ seen
        · rw [if_pos hseen] at hr; exact ih seen hr
        · rw [if_neg hseen] at hr
          rcases List.mem_cons.mp hr with h | h
          · subst h; simp [urlTruthy, ha, hu]
          · exact ih (u :: seen) h

/-- C9 (implicit): the merge step drops every result record lacking a truthy
`url` field — even a fresh one — while on the no-cached-payload path the
fresh results are returned as-is, url-less records included; so merging is
not purely concatenation-plus-deduplication. -/
theorem merge_drops_urlless :
    (∀ (primary secondary : List SearchResult) (r : SearchResult),
        r ∈ mergeResults primary secondary → urlTruthy r.url = true) ∧
    (∀ (maxEntries : Nat) (key : String) (intent : SearchIntent)
        (sig : String) (now : Nat) (freshResults : List SearchResult),
        (searchWorkflow maxEntries [] key intent sig now
          freshResults).payload.results = freshResults) :=
  ⟨fun primary secondary r hr => mergeLoop_truthy _ [] r hr,
   fun _ _ _ _ _ _ => rfl⟩

/-- Concrete instantiation of `merge_drops_urlless`: a url-less fresh record
is dropped by the merge while a cached record with a url is kept. -/
theorem merge_drops_urlless_witness :
    (⟨some "a", none, "cached"⟩ : SearchResult) ∈
      mergeResults [⟨some "", none, "fresh"⟩] [⟨some "a", none, "cached"⟩] ∧
    urlTruthy (SearchResult.url ⟨some "a", none, "cached"⟩) = true :=
  ⟨by decide,
    merge_drops_urlless.1 [⟨some "", none, "fresh"⟩]
      [⟨some "a", none, "cached"⟩] ⟨some "a", none, "cached"⟩ (by decide)⟩

/-- Decimal digit characters decode back to their digit. -/
theorem digitChar_toNat : ∀ d < 10, (digitChar d).toNat = 48 + d := by decide

/-- No decimal digit character is the key separator. -/
theorem digitChar_ne_bar : ∀ d < 10, digitChar d ≠ '|' := by decide

/-- Folding the decimal parser over `natDigits` recovers the number. -/
theorem parse_natDigits (fuel : Nat) : ∀ n acc, n ≤ fuel →
    (natDigits fuel n).foldl (fun acc c => acc * 10 + (c.toNat - 48)) acc =
      acc * 10 ^ (natDigits fuel n).length + n := by
  induction fuel with
  | zero =>
    intro n acc hn
    interval_cases n
    simp [natDigits]
  | succ fuel ih =>
    intro n acc hn
    by_cases h0 : n = 0
    · simp [natDigits, h0]
    · have hdiv : n / 10 ≤ fuel := by omega
      simp only [natDigits, if_neg h0, List.foldl_append, List.length_append]
      rw [ih (n / 10) acc hdiv]
      simp only [List.foldl_cons, List.foldl_nil, List.length_cons,
        List.length_nil]
      rw [digitChar_toNat (n % 10) (Nat.mod_lt n (by omega))]
      have : 48 + n % 10 - 48 = n % 10 := by omega
      rw [this]
      ring_nf
      omega

/-- `parseNat` is a left inverse of `natStr`. -/
theorem parse_natStr (n : Nat) : parseNat (natStr n).data = n := by
  by_cases h0 : n = 0
  · subst h0; rfl
  · unfold natStr parseNat
    rw [if_neg h0]
    show (natDigits n n).foldl _ 0 = n
    rw [parse_natDigits n n 0 le_rfl]
    simp

/-- Distinct naturals get distinct decimal strings. -/
theorem natStr_injective (n m : Nat) (h : natStr n = natStr m) : n = m := by
  have := congrArg (fun s => parseNat s.data) h
  simpa [parse_natStr] using this

/-- Decimal digit runs never contain the separator. -/
theorem bar_not_mem_natDigits (fuel : Nat) : ∀ n, '|' ∉ natDigits fuel n := by
  induction fuel with
  | zero => intro n; simp [natDigits]
  | succ fuel ih =>
    intro n
    by_cases h0 : n = 0
    · simp [natDigits, h0]
    · simp only [natDigits, if_neg h0, List.mem_append, List.mem_singleton]
      rintro (h | h)
      · exact ih (n / 10) h
      · exact digitChar_ne_bar (n % 10) (Nat.mod_lt n (by omega)) h.symm

/-- `natStr` output is separator-free. -/
theorem natStr_noSep (n : Nat) : '|' ∉ (natStr n).data := by
  by_cases h0 : n = 0
  · subst h0; decide
  · unfold natStr
    rw [if_neg h0]
    exact bar_not_mem_natDigits n n

/-- The key is the `'|'`-intercalation of its nine component parts. -/
theorem make_key_data (p : KeyParams) :
    (make_key p).data = List.intercalate ['|'] (partsOf p) := by
  simp [make_key, partsOf, String.intercalate, String.intercalate.go,
    String.data_append, List.intercalate]

/-- No intent string contains the separator. -/
theorem intent_toStr_noSep : ∀ i : SearchIntent, '|' ∉ i.toStr.data := by decide

/-- The intent enumeration's strings are pairwise distinct. -/
theorem intent_toStr_injective :
    ∀ i j : SearchIntent, i.toStr = j.toStr → i = j := by decide

/-- For a valid tuple every key component is separator-free. -/
theorem partsOf_noSep (p : KeyParams) (hp : p.valid) :
    ∀ l ∈ partsOf p, '|' ∉ l := by
  obtain ⟨h1, h2, h3⟩ := hp
  intro l hl
  simp only [partsOf, List.mem_cons, List.not_mem_nil, or_false] at hl
  rcases hl with rfl | rfl | rfl | rfl | rfl | rfl | rfl | rfl | rfl
  · exact intent_toStr_noSep p.intent
  · exact h1
  · exact natStr_noSep p.count
  · exact natStr_noSep p.offset
  · exact natStr_noSep p.page
  · exact h2
  · exact h3
  · cases p.related <;> decide
  · exact natStr_noSep (p.related_count.getD 0)

/-- C1: `make_key` is a pure deterministic function of the keyed fields and
is injective over them: for valid parameter tuples (no separator character
in the free-form string fields) two tuples produce the same key string
exactly when their encoded field tuples agree, where absent `site` /
`time_period` are encoded as the wildcard sentinel and absent
`related_count` as 0. -/
theorem make_key_deterministic_injective (p q : KeyParams)
    (hp : p.valid) (hq : q.valid) :
    (p = q → make_key p = make_key q) ∧
    (make_key p = make_key q ↔ p.encoded = q.encoded) := by
  refine ⟨fun h => by rw [h], ?_⟩
  constructor
  · intro h
    have hd : List.intercalate ['|'] (partsOf p) =
        List.intercalate ['|'] (partsOf q) := by
      rw [← make_key_data, ← make_key_data, h]
    have hps : partsOf p = partsOf q := by
      have h1 := List.splitOn_intercalate (partsOf p) '|' (partsOf_noSep p hp)
        (by simp [partsOf])
      have h2 := List.splitOn_intercalate (partsOf q) '|' (partsOf_noSep q hq)
        (by simp [partsOf])
      rw [← h1, ← h2, hd]
    simp only [partsOf, List.cons.injEq, and_true] at hps
    obtain ⟨e1, e2, e3, e4, e5, e6, e7, e8, e9⟩ := hps
    have hi : p.intent = q.intent :=
      intent_toStr_injective _ _ (String.ext e1)
    have hs : p.embedding_signature = q.embedding_signature := String.ext e2
    have hc : p.count = q.count := natStr_injective _ _ (String.ext e3)
    have ho : p.offset = q.offset := natStr_injective _ _ (String.ext e4)
    have hpg : p.page = q.page := natStr_injective _ _ (String.ext e5)
    have hsite : encodeOptStr p.site = encodeOptStr q.site := String.ext e6
    have htp : encodeOptStr p.time_period = encodeOptStr q.time_period :=
      String.ext e7
    have hrel : p.related = q.related := by
      have := String.ext e8
      cases hb : p.related <;> cases hb2 : q.related <;>
        rw [hb, hb2] at this <;> simp_all
    have hrc : p.related_count.getD 0 = q.related_count.getD 0 :=
      natStr_injective _ _ (String.ext e9)
    simp [KeyParams.encoded, hi, hs, hc, ho, hpg, hsite, htp, hrel, hrc]
  · intro h
    simp only [KeyParams.encoded, Prod.mk.injEq] at h
    obtain ⟨e1, e2, e3, e4, e5, e6, e7, e8, e9⟩ := h
    simp [make_key, e1, e2, e3, e4, e5, e6, e7, e8, e9]

/-- Concrete instantiation of `make_key_deterministic_injective`: two valid
tuples differing only in `page`. -/
theorem make_key_deterministic_injective_witness :
    KeyParams.valid ⟨.news, "abc", 10, 0, 1, none, none, false, none⟩ ∧
    KeyParams.valid ⟨.news, "abc", 10, 0, 2, none, none, false, none⟩ ∧
    (make_key ⟨.news, "abc", 10, 0, 1, none, none, false, none⟩ =
        make_key ⟨.news, "abc", 10, 0, 2, none, none, false, none⟩ ↔
      KeyParams.encoded ⟨.news, "abc", 10, 0, 1, none, none, false, none⟩ =
        KeyParams.encoded ⟨.news, "abc", 10, 0, 2, none, none, false, none⟩) :=
  ⟨by decide, by decide,
    (make_key_deterministic_injective _ _ (by decide) (by decide)).2⟩
/-- `mergeLoop` is first-occurrence URL deduplication over the records with
truthy urls. -/
theorem mergeLoop_eq_specDedup (l : List SearchResult) (seen : List String) :
    mergeLoop l seen =
      specDedupByUrl (l.filter (fun r => urlTruthy r.url)) (seen.map some) := by
  induction l generalizing seen with
  | nil => rfl
  | cons r rest ih =>
    cases hu : r.url with
    | none =>
      have hf : urlTruthy r.url = false := by rw [hu]; rfl
      simp only [mergeLoop, hu, List.filter_cons, hf, Bool.false_eq_true,
        if_false]
      exact ih seen
    | some u =>
      by_cases he : u = ""
      · subst he
        have hf : urlTruthy (some "") = false := rfl
        simp only [mergeLoop, hu, List.filter_cons, hf, Bool.false_eq_true,
          if_false, if_pos rfl]
        exact ih seen
      · have ht : urlTruthy (some u) = true := by simp [urlTruthy, he]
        have hmm : (some u ∈ seen.map some) ↔ u ∈ seen :=
          List.mem_map_of_injective (Option.some_injective _)
        simp only [mergeLoop, hu, List.filter_cons, ht, if_true, if_neg he]
        by_cases hseen : u ∈ seen
        · rw [if_pos hseen]
          simp only [specDedupByUrl, hu, if_pos (hmm.mpr hseen)]
          exact ih seen
        · rw [if_neg hseen]
          simp only [specDedupByUrl, hu]
          rw [if_neg (fun h => hseen (hmm.mp h))]
          have := ih (u :: seen)
          simp only [List.map_cons] at this
          rw [this]

/-- `_merge_results` equals the truthy-restricted dedup-by-URL merge. -/
theorem mergeResults_eq_specMergeTruthy
    (primary secondary : List SearchResult) :
    mergeResults primary secondary = specMergeTruthy primary secondary := by
  have := mergeLoop_eq_specDedup (primary ++ secondary) []
  simpa [mergeResults, specMergeTruthy] using this

/-- C3 counterexample: with a stale cached record and a fresh record whose
`url` is the empty string, the glue's final result list is not the
spec-claimed concatenation-then-dedup-by-URL (the url-less fresh record is
dropped wholesale, not deduplicated). -/
theorem searchWorkflow_specMerge_counterexample :
    (searchWorkflow 256
        [("k", ⟨"k", .news, "sig", ⟨[⟨some "a", none, "cached"⟩], none⟩, 0⟩)]
        "k" .news "sig" 1000 [⟨some "", none, "fresh"⟩]).payload.results =
      [⟨some "a", none, "cached"⟩] ∧
    specMerge [⟨some "", none, "fresh"⟩] [⟨some "a", none, "cached"⟩] =
      [⟨some "", none, "fresh"⟩, ⟨some "a", none, "cached"⟩] ∧
    (searchWorkflow 256
        [("k", ⟨"k", .news, "sig", ⟨[⟨some "a", none, "cached"⟩], none⟩, 0⟩)]
        "k" .news "sig" 1000 [⟨some "", none, "fresh"⟩]).payload.results ≠
      specMerge [⟨some "", none, "fresh"⟩] [⟨some "a", none, "cached"⟩] :=
  ⟨by decide, by decide, by decide⟩

/-- C3 (amended): for every request, a fresh cache hit returns the cached
payload annotated `hit` with its age and performs no external fetch; a
stale or absent entry triggers the fetch, the final result list is the
fresh-then-cached concatenation **restricted to records with a truthy url**
and deduplicated by URL with first occurrence preserved (fresh results win;
plain fresh results when there was no cached payload with prior results),
the payload is annotated `refresh` (with the stale age) or `miss` (age 0),
and it is always stored back via `cache.set`. -/
theorem searchWorkflow_cache_policy (maxEntries : Nat) (store : Store)
    (key : String) (intent : SearchIntent) (sig : String) (now : Nat)
    (freshResults : List SearchResult) :
    match cacheGet store key intent now with
    | (some lk, store1) =>
      if lk.fresh then
        searchWorkflow maxEntries store key intent sig now freshResults =
          ⟨{ lk.payload with
             cache_metadata := some ⟨"hit", some lk.age_seconds⟩ }, store1, false⟩
      else
        (searchWorkflow maxEntries store key intent sig now
            freshResults).fetched = true ∧
        (searchWorkflow maxEntries store key intent sig now
            freshResults).payload.results =
          (if lk.payload.results = [] then freshResults
           else specMergeTruthy freshResults lk.payload.results) ∧
        (searchWorkflow maxEntries store key intent sig now
            freshResults).payload.cache_metadata =
          some ⟨"refresh", some lk.age_seconds⟩ ∧
        (searchWorkflow maxEntries store key intent sig now
            freshResults).store =
          cacheSet maxEntries store1 key intent sig
            (searchWorkflow maxEntries store key intent sig now
              freshResults).payload now
    | (none, store1) =>
        (searchWorkflow maxEntries store key intent sig now
            freshResults).fetched = true ∧
        (searchWorkflow maxEntries store key intent sig now
            freshResults).payload.results = freshResults ∧
        (searchWorkflow maxEntries store key intent sig now
            freshResults).payload.cache_metadata = some ⟨"miss", some 0⟩ ∧
        (searchWorkflow maxEntries store key intent sig now
            freshResults).store =
          cacheSet maxEntries store1 key intent sig
            (searchWorkflow maxEntries store key intent sig now
              freshResults).payload now := by
  rcases hget : cacheGet store key intent now with ⟨olk, store1⟩
  cases olk with
  | none =>
    have hsw : searchWorkflow maxEntries store key intent sig now freshResults
        = fetchAndStore maxEntries store1 key intent sig now freshResults
            none none := by
      unfold searchWorkflow
      rw [hget]
    dsimp only
    rw [hsw]
    exact ⟨rfl, rfl, rfl, rfl⟩
  | some lk =>
    have hsw : searchWorkflow maxEntries store key intent sig now freshResults
        = if lk.fresh then
            ⟨{ lk.payload with
               cache_metadata := some ⟨"hit", some lk.age_seconds⟩ },
              store1, false⟩
          else fetchAndStore maxEntries store1 key intent sig now freshResults
            (some lk.payload) (some lk.age_seconds) := by
      unfold searchWorkflow
      rw [hget]
    dsimp only
    by_cases hf : lk.fresh
    · rw [if_pos hf, hsw, if_pos hf]
    · rw [if_neg hf, hsw, if_neg hf]
      refine ⟨rfl, ?_, rfl, rfl⟩
      by_cases hres : lk.payload.results = []
      · rw [if_pos hres]
        simp [fetchAndStore, hres]
      · rw [if_neg hres]
        simp [fetchAndStore, hres, mergeResults_eq_specMergeTruthy]

/-- The eviction loop drops the oldest `length - maxEntries` entries. -/
theorem evictIfNeeded_eq_drop (maxE : Nat) (s : Store) :
    evictIfNeeded maxE s = s.drop (s.length - maxE) := by
  induction s with
  | nil => simp [evictIfNeeded]
  | cons a t ih =>
    simp only [evictIfNeeded, List.length_cons]
    by_cases h : t.length + 1 ≤ maxE
    · rw [if_pos h]
      have h0 : t.length + 1 - maxE = 0 := by omega
      rw [h0]
      rfl
    · rw [if_neg h, ih]
      have h1 : t.length + 1 - maxE = (t.length - maxE) + 1 := by omega
      rw [h1]
      rfl

/-- Keys of an append. -/
theorem storeKeys_append (s1 s2 : Store) :
    storeKeys (s1 ++ s2) = storeKeys s1 ++ storeKeys s2 := by
  simp [storeKeys]

/-- Keys of a drop. -/
theorem storeKeys_drop (s : Store) (n : Nat) :
    storeKeys (s.drop n) = (storeKeys s).drop n := by
  simp [storeKeys]

/-- Erasing a key that is not present does nothing. -/
theorem storeErase_of_not_mem (s : Store) (k : String)
    (h : k ∉ storeKeys s) : storeErase s k = s := by
  apply List.filter_eq_self.mpr
  intro p hp
  have : p.1 ∈ storeKeys s := List.mem_map_of_mem _ hp
  simp only [decide_eq_true_eq]
  intro he
  exact h (he ▸ this)

/-- Keys of an erase. -/
theorem storeKeys_erase (s : Store) (k : String) :
    storeKeys (storeErase s k) = (storeKeys s).filter (fun x => x ≠ k) := by
  induction s with
  | nil => rfl
  | cons a t ih =>
    simp only [storeErase, storeKeys, List.map_cons, List.filter_cons] at *
    by_cases h : a.1 = k
    · simp [h]
      simpa using ih
    · simp [h]
      simpa using ih

/-- Keys after a `set`: the old keys without `key`, then `key` at the
most-recently-used end, truncated from the front to capacity. -/
theorem cacheSet_keys (maxE : Nat) (s : Store) (k : String)
    (i : SearchIntent) (g : String) (p : Payload) (n : Nat) :
    storeKeys (cacheSet maxE s k i g p n) =
      (((storeKeys s).filter (fun x => x ≠ k)) ++ [k]).drop
        ((((storeKeys s).filter (fun x => x ≠ k)).length + 1) - maxE) := by
  unfold cacheSet
  rw [evictIfNeeded_eq_drop, storeKeys_drop, storeKeys_append,
    storeKeys_erase]
  have hlen : (storeErase s k ++
      [(k, (⟨k, i, g, p, n⟩ : CacheEntry))]).length =
      ((storeKeys s).filter (fun x => x ≠ k)).length + 1 := by
    have : (storeErase s k).length = (storeKeys (storeErase s k)).length := by
      simp [storeKeys]
    simp only [List.length_append, List.length_cons, List.length_nil]
    rw [this, storeKeys_erase]
  rw [hlen]
  rfl

/-- A `set` never leaves the store above capacity. -/
theorem cacheSet_length_le (maxE : Nat) (s : Store) (k : String)
    (i : SearchIntent) (g : String) (p : Payload) (n : Nat) :
    (cacheSet maxE s k i g p n).length ≤ maxE := by
  have h := congrArg List.length (cacheSet_keys maxE s k i g p n)
  have hk : (cacheSet maxE s k i g p n).length =
      (storeKeys (cacheSet maxE s k i g p n)).length := by simp [storeKeys]
  rw [hk, h, List.length_drop, List.length_append]
  simp only [List.length_cons, List.length_nil]
  omega

/-- Inserting distinct fresh keys into an empty cache keeps exactly the
most recent `maxEntries` of them, in insertion order. -/
theorem setMany_keys (maxE : Nat) (ks : List String) (i : SearchIntent)
    (g : String) (p : Payload) (n : Nat) (hnd : ks.Nodup) :
    storeKeys (setMany maxE [] ks i g p n) = ks.drop (ks.length - maxE) := by
  induction ks using List.reverseRecOn with
  | nil => simp [setMany, storeKeys]
  | append_singleton ks k ih =>
    obtain ⟨hnd1, -, hdisj⟩ := List.nodup_append.mp hnd
    have hk : k ∉ ks := fun hmem => hdisj hmem (List.mem_singleton_self k)
    have hsm : setMany maxE [] (ks ++ [k]) i g p n =
        cacheSet maxE (setMany maxE [] ks i g p n) k i g p n := by
      simp [setMany, List.foldl_append]
    rw [hsm, cacheSet_keys, ih hnd1]
    have hkd : k ∉ ks.drop (ks.length - maxE) :=
      fun hmem => hk (List.drop_subset _ _ hmem)
    have hfil : (ks.drop (ks.length - maxE)).filter (fun x => x ≠ k) =
        ks.drop (ks.length - maxE) := by
      apply List.filter_eq_self.mpr
      intro x hx
      simp only [decide_eq_true_eq]
      exact fun he => hkd (he ▸ hx)
    rw [hfil, List.length_drop]
    simp only [List.length_append, List.length_cons, List.length_nil]
    by_cases hlt : ks.length < maxE
    · have h1 : ks.length - maxE = 0 := by omega
      have h2 : ks.length - (ks.length - maxE) + 1 - maxE = 0 := by omega
      have h3 : ks.length + 1 - maxE = 0 := by omega
      rw [h2, h3, h1]
      simp
    · by_cases h0 : maxE = 0
      · subst h0
        have h1 : ks.length - 0 = ks.length := by omega
        rw [h1, List.drop_length]
        have h2 : ks.length - ks.length + 1 - 0 = 1 := by omega
        rw [h2]
        have h3 : ks.length + 1 - 0 = ks.length + 1 := by omega
        rw [h3]
        have h4 : (ks ++ [k]).length ≤ ks.length + 1 := by
          simp
        rw [List.drop_eq_nil_of_le h4]
        rfl
      · have hm : maxE ≤ ks.length := by omega
        have h2 : ks.length - (ks.length - maxE) + 1 - maxE = 1 := by omega
        rw [h2]
        have h3 : ks.length + 1 - maxE = (ks.length - maxE) + 1 := by omega
        rw [h3]
        have h4 : (1 : Nat) ≤ (ks.drop (ks.length - maxE)).length := by
          rw [List.length_drop]
          omega
        rw [List.drop_append_of_le_length h4]
        have h5 : (ks.length - maxE) + 1 ≤ ks.length := by omega
        rw [List.drop_append_of_le_length h5]
        rw [List.drop_drop]

/-- C4: the store never exceeds `max_entries` after any `set`; inserting
`max_entries + k` distinct keys into an empty cache leaves exactly
`max_entries` entries whose keys are the last `max_entries` inserted — the
`k` evicted keys are exactly the `k` least-recently-used (first) ones;
inserting an existing key replaces its entry and moves it to the
most-recently-used position, and key uniqueness is preserved by every
`set`. -/
theorem cache_eviction_bound :
    (∀ (maxE : Nat) (s : Store) (key : String) (i : SearchIntent)
        (g : String) (p : Payload) (n : Nat),
        (cacheSet maxE s key i g p n).length ≤ maxE) ∧
    (∀ (maxE kk : Nat) (ks : List String) (i : SearchIntent) (g : String)
        (p : Payload) (n : Nat), ks.Nodup → ks.length = maxE + kk →
        (setMany maxE [] ks i g p n).length = maxE ∧
        storeKeys (setMany maxE [] ks i g p n) = ks.drop kk ∧
        ∀ x ∈ ks.take kk, x ∉ storeKeys (setMany maxE [] ks i g p n)) ∧
    (∀ (maxE : Nat) (s : Store) (key : String) (i : SearchIntent)
        (g : String) (p : Payload) (n : Nat), (storeKeys s).Nodup →
        (storeKeys (cacheSet maxE s key i g p n)).Nodup) ∧
    (∀ (maxE : Nat) (s : Store) (key : String) (i : SearchIntent)
        (g : String) (p : Payload) (n : Nat),
        s.length ≤ maxE → key ∈ storeKeys s →
        storeKeys (cacheSet maxE s key i g p n) =
          (storeKeys s).filter (fun x => x ≠ key) ++ [key]) := by
  refine ⟨fun maxE s key i g p n => cacheSet_length_le maxE s key i g p n,
    ?_, ?_, ?_⟩
  · intro maxE kk ks i g p n hnd hlen
    have hd : ks.length - maxE = kk := by omega
    have hkeys := setMany_keys maxE ks i g p n hnd
    rw [hd] at hkeys
    have hslen : (setMany maxE [] ks i g p n).length =
        (storeKeys (setMany maxE [] ks i g p n)).length := by
      simp [storeKeys]
    refine ⟨?_, hkeys, ?_⟩
    · rw [hslen, hkeys, List.length_drop]
      omega
    · intro x hx
      rw [hkeys]
      have hsplit := List.take_append_drop kk ks
      rw [← hsplit] at hnd
      obtain ⟨-, -, hdisj⟩ := List.nodup_append.mp hnd
      exact fun hmem => hdisj hx hmem
  · intro maxE s key i g p n hnd
    rw [cacheSet_keys]
    apply List.Nodup.sublist (List.drop_sublist _ _)
    apply List.Nodup.append (hnd.filter _) (List.nodup_singleton key)
    intro a ha hb
    rw [List.mem_singleton] at hb
    subst hb
    have := (List.mem_filter.mp ha).2
    simp at this
  · intro maxE s key i g p n hle hkey
    rw [cacheSet_keys]
    have hslen : s.length = (storeKeys s).length := by simp [storeKeys]
    have hflt : ((storeKeys s).filter (fun x => x ≠ key)).length <
        (storeKeys s).length := by
      apply lt_of_le_of_ne (List.length_filter_le _ _)
      intro he
      have := List.filter_length_eq_length.mp he key hkey
      simp at this
    have h0 : ((storeKeys s).filter (fun x => x ≠ key)).length + 1 - maxE
        = 0 := by omega
    rw [h0]
    rfl

/-- Concrete instantiation of `cache_eviction_bound`: capacity 2, three
distinct inserts evict exactly the first key; replacing key `"a"` in a
full-by-one store moves it to the most-recently-used slot. -/
theorem cache_eviction_bound_witness :
    (cacheSet 1 [] "a" .news "g" ⟨[], none⟩ 0).length ≤ 1 ∧
    ((setMany 2 [] ["a", "b", "c"] .news "g" ⟨[], none⟩ 0).length = 2 ∧
      storeKeys (setMany 2 [] ["a", "b", "c"] .news "g" ⟨[], none⟩ 0) =
        ["a", "b", "c"].drop 1 ∧
      ∀ x ∈ ["a", "b", "c"].take 1,
        x ∉ storeKeys (setMany 2 [] ["a", "b", "c"] .news "g" ⟨[], none⟩ 0)) ∧
    (storeKeys (cacheSet 1 [("a", ⟨"a", .news, "g", ⟨[], none⟩, 0⟩)] "a"
        .news "g" ⟨[], none⟩ 5)).Nodup ∧
    storeKeys (cacheSet 1 [("a", ⟨"a", .news, "g", ⟨[], none⟩, 0⟩)] "a"
        .news "g" ⟨[], none⟩ 5) =
      (storeKeys [("a", ⟨"a", .news, "g", ⟨[], none⟩, 0⟩)]).filter
        (fun x => x ≠ "a") ++ ["a"] :=
  ⟨cache_eviction_bound.1 1 [] "a" .news "g" ⟨[], none⟩ 0,
    cache_eviction_bound.2.1 2 1 ["a", "b", "c"] .news "g" ⟨[], none⟩ 0
      (by decide) (by decide),
    cache_eviction_bound.2.2.1 1 [("a", ⟨"a", .news, "g", ⟨[], none⟩, 0⟩)]
      "a" .news "g" ⟨[], none⟩ 5 (by decide),
    cache_eviction_bound.2.2.2 1 [("a", ⟨"a", .news, "g", ⟨[], none⟩, 0⟩)]
      "a" .news "g" ⟨[], none⟩ 5 (by decide) (by decide)⟩

/-- A successful `executeAux` run appends exactly one `HopResult` and one
trace entry per hop, in order, and invokes every hop. -/
theorem executeAux_ok_spec (reg : ToolRegistry) (ctx : Val) :
    ∀ (hops : List Hop) (results : List (String × HopResult))
      (trace : List TraceEntry) (state : StateDict) (outcome : ExecOutcome),
    (executeAux reg ctx hops results trace state).2 = .ok outcome →
    outcome.results.map (·.1) = results.map (·.1) ++ hops.map Hop.name ∧
    outcome.trace = trace ++ hops.map (fun h => ⟨h.name, h.tool, h.depends_on⟩) ∧
    (executeAux reg ctx hops results trace state).1.map (·.1) =
      hops.map Hop.name := by
  intro hops
  induction hops with
  | nil =>
    intro results trace state outcome h
    simp only [executeAux, Except.ok.injEq] at h
    subst h
    simp [executeAux]
  | cons hop rest ih =>
    intro results trace state outcome h
    cases htool : lookupTool reg hop.tool with
    | none => simp [executeAux, htool] at h
    | some tool =>
      cases hdeps : extractDeps results hop.depends_on with
      | none => simp [executeAux, htool, hdeps] at h
      | some deps =>
        cases hrun : tool.run
            (buildInvocationParams tool.sig hop ctx deps state) with
        | error e => simp [executeAux, htool, hdeps, hrun] at h
        | ok outst =>
          obtain ⟨out, st2⟩ := outst
          simp only [executeAux, htool, hdeps, hrun] at h
          obtain ⟨h1, h2, h3⟩ := ih _ _ _ _ h
          refine ⟨?_, ?_, ?_⟩
          · rw [h1]; simp
          · rw [h2]; simp
          · simp only [executeAux, htool, hdeps, hrun, List.map_cons]
            rw [h3]

/-- A failing `executeAux` run pinpoints a first failing hop: every hop
before it was invoked (in order), the failing hop's own exception (or the
unknown-tool / missing-dependency error) is returned unmodified, and no
later hop appears in the invocation log. -/
theorem executeAux_error_spec (reg : ToolRegistry) (ctx : Val) :
    ∀ (hops : List Hop) (results : List (String × HopResult))
      (trace : List TraceEntry) (state : StateDict) (e : String),
    (executeAux reg ctx hops results trace state).2 = .error e →
    ∃ pre h post, hops = pre ++ h :: post ∧
      ((lookupTool reg h.tool = none ∧
          e = "Tool '" ++ h.tool ++ "' is not registered" ∧
          (executeAux reg ctx hops results trace state).1.map (·.1) =
            pre.map Hop.name) ∨
       (∃ tool ps, lookupTool reg h.tool = some tool ∧
          tool.run ps = .error e ∧
          (executeAux reg ctx hops results trace state).1.map (·.1) =
            pre.map Hop.name ++ [h.name]) ∨
       (e = "KeyError" ∧
          (executeAux reg ctx hops results trace state).1.map (·.1) =
            pre.map Hop.name)) := by
  intro hops
  induction hops with
  | nil =>
    intro results trace state e h
    simp [executeAux] at h
  | cons hop rest ih =>
    intro results trace state e h
    cases htool : lookupTool reg hop.tool with
    | none =>
      refine ⟨[], hop, rest, rfl, Or.inl ⟨htool, ?_, ?_⟩⟩
      · simp only [executeAux, htool] at h
        exact (Except.error.injEq _ _).mp h.symm
      · simp [executeAux, htool]
    | some tool =>
      cases hdeps : extractDeps results hop.depends_on with
      | none =>
        refine ⟨[], hop, rest, rfl, Or.inr (Or.inr ⟨?_, ?_⟩)⟩
        · simp only [executeAux, htool, hdeps] at h
          exact (Except.error.injEq _ _).mp h.symm
        · simp [executeAux, htool, hdeps]
      | some deps =>
        cases hrun : tool.run
            (buildInvocationParams tool.sig hop ctx deps state) with
        | error e2 =>
          have he : e2 = e := by
            simp only [executeAux, htool, hdeps, hrun] at h
            exact (Except.error.injEq _ _).mp h
          subst he
          refine ⟨[], hop, rest, rfl, Or.inr (Or.inl
            ⟨tool, buildInvocationParams tool.sig hop ctx deps state,
              htool, hrun, ?_⟩)⟩
          simp [executeAux, htool, hdeps, hrun]
        | ok outst =>
          obtain ⟨out, st2⟩ := outst
          simp only [executeAux, htool, hdeps, hrun] at h
          obtain ⟨pre, hf, post, hsplit, hcase⟩ := ih _ _ _ _ h
          refine ⟨hop :: pre, hf, post, by rw [List.cons_append, ← hsplit],
            ?_⟩
          have hlog : (executeAux reg ctx (hop :: rest) results trace
              state).1.map (·.1) =
              hop.name :: ((executeAux reg ctx rest
                (results ++ [(hop.name,
                  ⟨hop, out, hop.depends_on, hop.tool⟩)])
                (trace ++ [⟨hop.name, hop.tool, hop.depends_on⟩])
                (if "state" ∈ tool.sig ∧ (pLookup hop.params "state").isNone
                  then st2 else state)).1.map (·.1)) := by
            simp [executeAux, htool, hdeps, hrun]
          rcases hcase with ⟨ha, hb, hc⟩ | ⟨tool2, ps2, ha, hb, hc⟩ |
            ⟨ha, hc⟩
          · exact Or.inl ⟨ha, hb, by rw [hlog, hc]; simp⟩
          · exact Or.inr (Or.inl ⟨tool2, ps2, ha, hb, by
              rw [hlog, hc]; simp⟩)
          · exact Or.inr (Or.inr ⟨ha, by rw [hlog, hc]; simp⟩)

/-- C8: if any hop's operation raises during `execute` (including the
unknown-tool error), the same exception propagates out of `execute`
unmodified, no later hop is ever invoked, and the caller receives no
`OrchestrationResult`; on a fully successful run, `execute` returns exactly
one `HopResult` per hop keyed by hop name and a trace listing the hops in
execution order. -/
theorem execute_failfast_or_complete (reg : ToolRegistry) (ctx : Val)
    (hops : List Hop) (sharedState : Option StateDict) :
    match execute reg ctx hops sharedState with
    | (log, Except.ok outcome) =>
        outcome.results.map (·.1) = hops.map Hop.name ∧
        outcome.trace =
          hops.map (fun h => TraceEntry.mk h.name h.tool h.depends_on) ∧
        log.map (·.1) = hops.map Hop.name
    | (log, Except.error e) =>
        ∃ pre h post, hops = pre ++ h :: post ∧
          ((lookupTool reg h.tool = none ∧
              e = "Tool '" ++ h.tool ++ "' is not registered" ∧
              log.map (·.1) = pre.map Hop.name) ∨
           (∃ tool ps, lookupTool reg h.tool = some tool ∧
              tool.run ps = .error e ∧
              log.map (·.1) = pre.map Hop.name ++ [h.name]) ∨
           (e = "KeyError" ∧ log.map (·.1) = pre.map Hop.name)) := by
  rcases hex : execute reg ctx hops sharedState with ⟨log, res⟩
  have h1 : executeAux reg ctx hops [] [] (resolveState sharedState).1 =
      (log, res) := hex
  cases res with
  | ok outcome =>
    have h2 : (executeAux reg ctx hops [] []
        (resolveState sharedState).1).2 = .ok outcome := by rw [h1]
    obtain ⟨ha, hb, hc⟩ := executeAux_ok_spec reg ctx hops [] [] _ outcome h2
    have hlog : (executeAux reg ctx hops [] []
        (resolveState sharedState).1).1 = log := by rw [h1]
    rw [hlog] at hc
    exact ⟨by simpa using ha, by simpa using hb, hc⟩
  | error e =>
    have h2 : (executeAux reg ctx hops [] []
        (resolveState sharedState).1).2 = .error e := by rw [h1]
    obtain ⟨pre, h, post, hsplit, hcase⟩ :=
      executeAux_error_spec reg ctx hops [] [] _ e h2
    have hlog : (executeAux reg ctx hops [] []
        (resolveState sharedState).1).1 = log := by rw [h1]
    rw [hlog] at hcase
    exact ⟨pre, h, post, hsplit, hcase⟩

/-- Lookup after appending a single binding. -/
theorem pLookup_append_single (l : List (String × Val)) (m : String)
    (v : Val) (n : String) :
    pLookup (l ++ [(m, v)]) n =
      match pLookup l n with
      | some w => some w
      | none => if n = m then some v else none := by
  induction l with
  | nil =>
    simp only [List.nil_append, pLookup, List.find?]
    by_cases h : m = n
    · subst h
      simp
    · have h2 : ¬ n = m := fun hh => h hh.symm
      simp [h, h2]
  | cons a t ih =>
    by_cases h : a.1 = n
    · simp [pLookup, List.find?, h]
    · simp only [pLookup, List.cons_append, List.find?_cons] at *
      have hd : (decide (a.1 = n)) = false := by simp [h]
      rw [hd]
      simp only [ih]

/-- Appending a binding for a different key does not change a lookup. -/
theorem pLookup_append_other (l : List (String × Val)) (m : String)
    (v : Val) (n : String) (hne : n ≠ m) :
    pLookup (l ++ [(m, v)]) n = pLookup l n := by
  rw [pLookup_append_single]
  cases h : pLookup l n with
  | none => simp [hne]
  | some w => rfl

/-- Appending a binding for `m` makes the lookup of `m` its old value if
present, else the new value. -/
theorem pLookup_append_self (l : List (String × Val)) (m : String)
    (v : Val) :
    pLookup (l ++ [(m, v)]) m = some ((pLookup l m).getD v) := by
  rw [pLookup_append_single]
  cases h : pLookup l m with
  | none => simp
  | some w => rfl

/-- A conditional injection step never overwrites an existing binding. -/
theorem pLookup_inject_preserves (l : List (String × Val)) (k : String)
    (cond : Prop) [Decidable cond] (v : Val) (n : String) (w : Val)
    (h : pLookup l n = some w) :
    pLookup (if cond ∧ (pLookup l k).isNone then l ++ [(k, v)] else l) n
      = some w := by
  split
  · rename_i hc
    by_cases hk : n = k
    · subst hk
      rw [h] at hc
      simp at hc
    · rw [pLookup_append_other l k v n hk]
      exact h
  · exact h

/-- A conditional injection step changes no lookup other than its key. -/
theorem pLookup_inject_other (l : List (String × Val)) (k : String)
    (cond : Prop) [Decidable cond] (v : Val) (n : String) (hne : n ≠ k) :
    pLookup (if cond ∧ (pLookup l k).isNone then l ++ [(k, v)] else l) n
      = pLookup l n := by
  split
  · exact pLookup_append_other l k v n hne
  · rfl

/-- The `ctx` binding after parameter building: injected exactly when the
tool declares `ctx` and the hop's params do not bind it. -/
theorem build_ctx_lookup (sig : List String) (hop : Hop) (ctx : Val)
    (deps : List (String × Val)) (st : StateDict) :
    pLookup (buildInvocationParams sig hop ctx deps st) "ctx" =
      if "ctx" ∈ sig ∧ (pLookup hop.params "ctx").isNone then some ctx
      else pLookup hop.params "ctx" := by
  simp only [buildInvocationParams]
  rw [pLookup_inject_other _ "state" _ _ _ (by decide)]
  rw [pLookup_inject_other _ "dependencies" _ _ _ (by decide)]
  split
  · rename_i hc
    rw [pLookup_append_self, Option.isNone_iff_eq_none.mp hc.2]
    rfl
  · rfl

/-- The `dependencies` binding after parameter building. -/
theorem build_dependencies_lookup (sig : List String) (hop : Hop)
    (ctx : Val) (deps : List (String × Val)) (st : StateDict) :
    pLookup (buildInvocationParams sig hop ctx deps st) "dependencies" =
      if "dependencies" ∈ sig ∧ (pLookup hop.params "dependencies").isNone
      then some (Val.dict deps)
      else pLookup hop.params "dependencies" := by
  simp only [buildInvocationParams]
  rw [pLookup_inject_other _ "state" _ _ _ (by decide)]
  have heq : pLookup
      (if "ctx" ∈ sig ∧ (pLookup hop.params "ctx").isNone then
        hop.params ++ [("ctx", ctx)] else hop.params) "dependencies" =
      pLookup hop.params "dependencies" :=
    pLookup_inject_other _ "ctx" _ _ _ (by decide)
  rw [heq]
  split
  · rename_i hc
    rw [pLookup_append_self, heq, Option.isNone_iff_eq_none.mp hc.2]
    rfl
  · exact heq

/-- The `state` binding after parameter building. -/
theorem build_state_lookup (sig : List String) (hop : Hop) (ctx : Val)
    (deps : List (String × Val)) (st : StateDict) :
    pLookup (buildInvocationParams sig hop ctx deps st) "state" =
      if "state" ∈ sig ∧ (pLookup hop.params "state").isNone
      then some (Val.dict st)
      else pLookup hop.params "state" := by
  simp only [buildInvocationParams]
  have heq1 : pLookup
      (if "ctx" ∈ sig ∧ (pLookup hop.params "ctx").isNone then
        hop.params ++ [("ctx", ctx)] else hop.params) "state" =
      pLookup hop.params "state" :=
    pLookup_inject_other _ "ctx" _ _ _ (by decide)
  have heq2 : pLookup
      (if "dependencies" ∈ sig ∧
          (pLookup (if "ctx" ∈ sig ∧ (pLookup hop.params "ctx").isNone then
            hop.params ++ [("ctx", ctx)] else hop.params)
            "dependencies").isNone then
        (if "ctx" ∈ sig ∧ (pLookup hop.params "ctx").isNone then
          hop.params ++ [("ctx", ctx)] else hop.params) ++
          [("dependencies", Val.dict deps)]
       else (if "ctx" ∈ sig ∧ (pLookup hop.params "ctx").isNone then
          hop.params ++ [("ctx", ctx)] else hop.params)) "state" =
      pLookup hop.params "state" := by
    rw [pLookup_inject_other _ "dependencies" _ _ _ (by decide)]
    exact heq1
  rw [heq2]
  split
  · rename_i hc
    rw [pLookup_append_self, heq2, Option.isNone_iff_eq_none.mp hc.2]
    rfl
  · exact heq2

/-- Any binding other than the three special names is untouched. -/
theorem build_other_lookup (sig : List String) (hop : Hop) (ctx : Val)
    (deps : List (String × Val)) (st : StateDict) (n : String)
    (h1 : n ≠ "ctx") (h2 : n ≠ "dependencies") (h3 : n ≠ "state") :
    pLookup (buildInvocationParams sig hop ctx deps st) n =
      pLookup hop.params n := by
  simp only [buildInvocationParams]
  rw [pLookup_inject_other _ "state" _ _ _ h3,
    pLookup_inject_other _ "dependencies" _ _ _ h2,
    pLookup_inject_other _ "ctx" _ _ _ h1]

/-- Explicit hop params survive parameter building unchanged. -/
theorem build_preserves_params (sig : List String) (hop : Hop) (ctx : Val)
    (deps : List (String × Val)) (st : StateDict) (n : String) (w : Val)
    (h : pLookup hop.params n = some w) :
    pLookup (buildInvocationParams sig hop ctx deps st) n = some w := by
  simp only [buildInvocationParams]
  exact pLookup_inject_preserves _ "state" _ _ _ _
    (pLookup_inject_preserves _ "dependencies" _ _ _ _
      (pLookup_inject_preserves _ "ctx" _ _ _ _ h))

/-- `extractDeps` builds exactly one entry per requested name, each bound
to the output of the found `HopResult`. -/
theorem extractDeps_spec (results : List (String × HopResult)) :
    ∀ (names : List String) (deps : List (String × Val)),
    extractDeps results names = some deps →
    deps.map (·.1) = names ∧
    ∀ n ∈ names, ∃ pr, results.find? (fun p => p.1 = n) = some pr ∧
      (n, pr.2.output) ∈ deps := by
  intro names
  induction names with
  | nil =>
    intro deps h
    simp only [extractDeps, Option.some.injEq] at h
    subst h
    simp
  | cons n rest ih =>
    intro deps h
    simp only [extractDeps] at h
    cases hfind : results.find? (fun p => p.1 = n) with
    | none => rw [hfind] at h; simp at h
    | some pr =>
      rw [hfind] at h
      cases hrec : extractDeps results rest with
      | none => rw [hrec] at h; simp at h
      | some l =>
        rw [hrec] at h
        have h2 : (n, pr.2.output) :: l = deps := by simpa using h
        subst h2
        obtain ⟨ha, hb⟩ := ih l hrec
        refine ⟨by simp [ha], ?_⟩
        intro m hm
        rcases List.mem_cons.mp hm with rfl | hm2
        · exact ⟨pr, hfind, List.mem_cons_self _ _⟩
        · obtain ⟨pr2, hf2, hmem⟩ := hb m hm2
          exact ⟨pr2, hf2, List.mem_cons_of_mem _ hmem⟩

/-- One executor step: a hop whose tool resolves, whose dependency outputs
extract, and whose call succeeds is invoked with exactly
`buildInvocationParams`, and contributes exactly its own `HopResult` and
trace entry before the rest of the plan runs. -/
theorem executeAux_cons_ok (reg : ToolRegistry) (ctxv : Val) (hop : Hop)
    (rest : List Hop) (results : List (String × HopResult))
    (trace : List TraceEntry) (state : StateDict) (tool : Tool)
    (deps : List (String × Val)) (out : Val) (st2 : StateDict)
    (htool : lookupTool reg hop.tool = some tool)
    (hdeps : extractDeps results hop.depends_on = some deps)
    (hrun : tool.run (buildInvocationParams tool.sig hop ctxv deps state) =
      .ok (out, st2)) :
    executeAux reg ctxv (hop :: rest) results trace state =
      ((hop.name, buildInvocationParams tool.sig hop ctxv deps state) ::
          (executeAux reg ctxv rest
            (results ++ [(hop.name, ⟨hop, out, hop.depends_on, hop.tool⟩)])
            (trace ++ [⟨hop.name, hop.tool, hop.depends_on⟩])
            (if "state" ∈ tool.sig ∧ (pLookup hop.params "state").isNone
              then st2 else state)).1,
        (executeAux reg ctxv rest
            (results ++ [(hop.name, ⟨hop, out, hop.depends_on, hop.tool⟩)])
            (trace ++ [⟨hop.name, hop.tool, hop.depends_on⟩])
            (if "state" ∈ tool.sig ∧ (pLookup hop.params "state").isNone
              then st2 else state)).2) := by
  simp [executeAux, htool, hdeps, hrun]

/-- C7: invocation parameters are the hop's declared params merged with the
special parameters (`ctx`, `dependencies`, `state`), each injected only
when the tool declares that parameter name and never overwriting an
explicitly supplied one; the injected dependencies mapping holds exactly
one entry per name in `depends_on`, bound to the output of that
dependency's already-completed `HopResult`; and the executor invokes every
hop with exactly these parameters. -/
theorem hop_param_injection_and_wiring (sig : List String) (hop : Hop)
    (ctxv : Val) (deps : List (String × Val)) (st : StateDict) :
    (∀ n w, pLookup hop.params n = some w →
      pLookup (buildInvocationParams sig hop ctxv deps st) n = some w) ∧
    (pLookup (buildInvocationParams sig hop ctxv deps st) "ctx" =
      if "ctx" ∈ sig ∧ (pLookup hop.params "ctx").isNone then some ctxv
      else pLookup hop.params "ctx") ∧
    (pLookup (buildInvocationParams sig hop ctxv deps st) "dependencies" =
      if "dependencies" ∈ sig ∧ (pLookup hop.params "dependencies").isNone
      then some (Val.dict deps) else pLookup hop.params "dependencies") ∧
    (pLookup (buildInvocationParams sig hop ctxv deps st) "state" =
      if "state" ∈ sig ∧ (pLookup hop.params "state").isNone
      then some (Val.dict st) else pLookup hop.params "state") ∧
    (∀ n, n ≠ "ctx" → n ≠ "dependencies" → n ≠ "state" →
      pLookup (buildInvocationParams sig hop ctxv deps st) n =
        pLookup hop.params n) ∧
    (∀ (results : List (String × HopResult)) (names : List String)
        (ds : List (String × Val)), extractDeps results names = some ds →
      ds.map (·.1) = names ∧
      ∀ n ∈ names, ∃ pr, results.find? (fun p => p.1 = n) = some pr ∧
        (n, pr.2.output) ∈ ds) ∧
    (∀ (reg : ToolRegistry) (rest : List Hop)
        (results : List (String × HopResult)) (trace : List TraceEntry)
        (state : StateDict) (tool : Tool) (ds : List (String × Val))
        (out : Val) (st2 : StateDict),
      lookupTool reg hop.tool = some tool →
      extractDeps results hop.depends_on = some ds →
      tool.run (buildInvocationParams tool.sig hop ctxv ds state) =
        .ok (out, st2) →
      executeAux reg ctxv (hop :: rest) results trace state =
        ((hop.name, buildInvocationParams tool.sig hop ctxv ds state) ::
            (executeAux reg ctxv rest
              (results ++
                [(hop.name, ⟨hop, out, hop.depends_on, hop.tool⟩)])
              (trace ++ [⟨hop.name, hop.tool, hop.depends_on⟩])
              (if "state" ∈ tool.sig ∧ (pLookup hop.params "state").isNone
                then st2 else state)).1,
          (executeAux reg ctxv rest
              (results ++
                [(hop.name, ⟨hop, out, hop.depends_on, hop.tool⟩)])
              (trace ++ [⟨hop.name, hop.tool, hop.depends_on⟩])
              (if "state" ∈ tool.sig ∧ (pLookup hop.params "state").isNone
                then st2 else state)).2)) :=
  ⟨fun n w h => build_preserves_params sig hop ctxv deps st n w h,
    build_ctx_lookup sig hop ctxv deps st,
    build_dependencies_lookup sig hop ctxv deps st,
    build_state_lookup sig hop ctxv deps st,
    fun n h1 h2 h3 => build_other_lookup sig hop ctxv deps st n h1 h2 h3,
    fun results names ds h => extractDeps_spec results names ds h,
    fun reg rest results trace state tool ds out st2 h1 h2 h3 =>
      executeAux_cons_ok reg ctxv hop rest results trace state tool ds out
        st2 h1 h2 h3⟩

/-- Concrete instantiation of `hop_param_injection_and_wiring`: the spec's
`search → details` wiring, with the `details` tool declaring a
`dependencies` parameter and the hop declaring its own `q` param. -/
theorem hop_param_injection_and_wiring_witness :
    pLookup
      (buildInvocationParams ["dependencies"]
        ⟨"details", "details", [("q", Val.str "x")], ["search"]⟩
        Val.ctxHandle [("search", Val.str "out_s")] []) "q" =
      some (Val.str "x") ∧
    ([("search", Val.str "out_s")].map (·.1) = ["search"] ∧
      ∀ n ∈ ["search"], ∃ pr,
        [("search",
          (⟨⟨"search", "search", [], []⟩, Val.str "out_s", [],
            "search"⟩ : HopResult))].find? (fun p => p.1 = n) = some pr ∧
        (n, pr.2.output) ∈ [("search", Val.str "out_s")]) ∧
    executeAux [("details", ⟨["dependencies"],
        fun _ => Except.ok (Val.str "out_d", [])⟩)] Val.ctxHandle
      [⟨"details", "details", [("q", Val.str "x")], ["search"]⟩]
      [("search", ⟨⟨"search", "search", [], []⟩, Val.str "out_s", [],
        "search"⟩)] [] [] =
      (("details",
          buildInvocationParams ["dependencies"]
            ⟨"details", "details", [("q", Val.str "x")], ["search"]⟩
            Val.ctxHandle [("search", Val.str "out_s")] []) ::
        (executeAux [("details", ⟨["dependencies"],
            fun _ => Except.ok (Val.str "out_d", [])⟩)] Val.ctxHandle []
          ([("search", ⟨⟨"search", "search", [], []⟩, Val.str "out_s", [],
            "search"⟩)] ++
            [("details",
              ⟨⟨"details", "details", [("q", Val.str "x")], ["search"]⟩,
                Val.str "out_d", ["search"], "details"⟩)])
          ([] ++ [⟨"details", "details", ["search"]⟩])
          (if "state" ∈ ["dependencies"] ∧
              (pLookup [("q", Val.str "x")] "state").isNone
            then [] else [])).1,
        (executeAux [("details", ⟨["dependencies"],
            fun _ => Except.ok (Val.str "out_d", [])⟩)] Val.ctxHandle []
          ([("search", ⟨⟨"search", "search", [], []⟩, Val.str "out_s", [],
            "search"⟩)] ++
            [("details",
              ⟨⟨"details", "details", [("q", Val.str "x")], ["search"]⟩,
                Val.str "out_d", ["search"], "details"⟩)])
          ([] ++ [⟨"details", "details", ["search"]⟩])
          (if "state" ∈ ["dependencies"] ∧
              (pLookup [("q", Val.str "x")] "state").isNone
            then [] else [])).2) :=
  ⟨(hop_param_injection_and_wiring ["dependencies"]
      ⟨"details", "details", [("q", Val.str "x")], ["search"]⟩
      Val.ctxHandle [("search", Val.str "out_s")] []).1 "q" (Val.str "x")
      rfl,
   (hop_param_injection_and_wiring ["dependencies"]
      ⟨"details", "details", [("q", Val.str "x")], ["search"]⟩
      Val.ctxHandle [("search", Val.str "out_s")] []).2.2.2.2.2.1
      [("search", ⟨⟨"search", "search", [], []⟩, Val.str "out_s", [],
        "search"⟩)] ["search"] [("search", Val.str "out_s")] rfl,
   (hop_param_injection_and_wiring ["dependencies"]
      ⟨"details", "details", [("q", Val.str "x")], ["search"]⟩
      Val.ctxHandle [("search", Val.str "out_s")] []).2.2.2.2.2.2
      [("details", ⟨["dependencies"],
        fun _ => Except.ok (Val.str "out_d", [])⟩)] []
      [("search", ⟨⟨"search", "search", [], []⟩, Val.str "out_s", [],
        "search"⟩)] [] [] ⟨["dependencies"],
        fun _ => Except.ok (Val.str "out_d", [])⟩
      [("search", Val.str "out_s")] (Val.str "out_d") [] rfl rfl rfl⟩

/-- A scan splits its input: scheduled and still-pending hops together are
a permutation of the pending hops. -/
theorem onePass_perm (pending : List Hop) (resolved : List String) :
    ((onePass pending resolved).1 ++ (onePass pending resolved).2.2).Perm
      pending := by
  induction pending generalizing resolved with
  | nil => simp [onePass]
  | cons h rest ih =>
    simp only [onePass]
    split
    · simpa using (ih (h.name :: resolved)).cons h
    · exact (List.perm_middle.trans ((ih resolved).cons h))

/-- The scheduled part of a scan preserves declaration order. -/
theorem onePass_sched_sublist (pending : List Hop) (resolved : List String) :
    (onePass pending resolved).1.Sublist pending := by
  induction pending generalizing resolved with
  | nil => simp [onePass]
  | cons h rest ih =>
    simp only [onePass]
    split
    · exact (ih (h.name :: resolved)).cons₂ h
    · exact (ih resolved).cons h

/-- The still-pending part of a scan preserves declaration order. -/
theorem onePass_pend_sublist (pending : List Hop) (resolved : List String) :
    (onePass pending resolved).2.2.Sublist pending := by
  induction pending generalizing resolved with
  | nil => simp [onePass]
  | cons h rest ih =>
    simp only [onePass]
    split
    · exact (ih (h.name :: resolved)).cons h
    · exact (ih resolved).cons₂ h

/-- The resolved set after a scan is the scheduled names pushed onto the
initial resolved set. -/
theorem onePass_resolved_eq (pending : List Hop) (resolved : List String) :
    (onePass pending resolved).2.1 =
      accNames (onePass pending resolved).1 resolved := by
  induction pending generalizing resolved with
  | nil => simp [onePass, accNames]
  | cons h rest ih =>
    simp only [onePass]
    split
    · simpa [accNames] using ih (h.name :: resolved)
    · exact ih resolved

/-- Scheduled hops of one scan form a valid schedule: each one's
dependencies were resolved before it (initially, or by an earlier hop of
the same scan). -/
theorem onePass_sched_valid (pending : List Hop) (resolved : List String) :
    validOrder resolved (onePass pending resolved).1 := by
  induction pending generalizing resolved with
  | nil => simp [onePass, validOrder]
  | cons h rest ih =>
    simp only [onePass]
    split
    · rename_i hc
      refine ⟨?_, ih (h.name :: resolved)⟩
      intro d hd
      exact List.mem_of_elem_eq_true (by
        have := List.all_eq_true.mp hc d hd
        simpa using this)
    · exact ih resolved

/-- If some pending hop is fully resolved, the scan schedules something. -/
theorem onePass_sched_nonempty (pending : List Hop) (resolved : List String)
    (hex : ∃ h ∈ pending, ∀ d ∈ h.depends_on, d ∈ resolved) :
    (onePass pending resolved).1 ≠ [] := by
  induction pending generalizing resolved with
  | nil => simp at hex
  | cons h rest ih =>
    simp only [onePass]
    split
    · simp
    · rename_i hc
      obtain ⟨h2, hmem, hdeps⟩ := hex
      rcases List.mem_cons.mp hmem with rfl | hmem2
      · exact absurd (List.all_eq_true.mpr
          (fun d hd => by simpa using hdeps d hd)) hc
      · exact ih resolved ⟨h2, hmem2, hdeps⟩

/-- Membership in the accumulated resolved set. -/
theorem mem_accNames (l : List Hop) (res : List String) (x : String) :
    x ∈ accNames l res ↔ x ∈ l.map Hop.name ∨ x ∈ res := by
  induction l generalizing res with
  | nil => simp [accNames]
  | cons h rest ih =>
    simp only [accNames, List.foldl_cons, List.map_cons, List.mem_cons]
    rw [show List.foldl (fun r h => h.name :: r) (h.name :: res) rest =
      accNames rest (h.name :: res) from rfl, ih]
    simp only [List.mem_cons]
    tauto

/-- Valid schedules compose: a valid block followed by a block valid for
the accordingly extended resolved set. -/
theorem validOrder_append (l1 l2 : List Hop) (res : List String)
    (h1 : validOrder res l1) (h2 : validOrder (accNames l1 res) l2) :
    validOrder res (l1 ++ l2) := by
  induction l1 generalizing res with
  | nil => simpa [accNames] using h2
  | cons h rest ih =>
    obtain ⟨ha, hb⟩ := h1
    exact ⟨ha, ih (h.name :: res) hb (by
      simpa [accNames] using h2)⟩

/-- Filtering a valid schedule stays valid for a larger resolved set that
covers every dropped hop's name. -/
theorem validOrder_filter (l : List Hop) (res res' : List String)
    (p : Hop → Bool) (hv : validOrder res l) (hsub : ∀ x ∈ res, x ∈ res')
    (hdrop : ∀ h ∈ l, p h = false → h.name ∈ res') :
    validOrder res' (l.filter p) := by
  induction l generalizing res res' with
  | nil => simp [validOrder]
  | cons h rest ih =>
    obtain ⟨ha, hb⟩ := hv
    by_cases hp : p h = true
    · rw [List.filter_cons_of_pos hp]
      refine ⟨fun d hd => hsub d (ha d hd), ?_⟩
      apply ih (h.name :: res) (h.name :: res') hb
      · intro x hx
        rcases List.mem_cons.mp hx with rfl | hx2
        · exact List.mem_cons_self _ _
        · exact List.mem_cons_of_mem _ (hsub x hx2)
      · intro h2 hmem hfalse
        exact List.mem_cons_of_mem _ (hdrop h2 (List.mem_cons_of_mem _ hmem)
          hfalse)
    · rw [List.filter_cons_of_neg hp]
      apply ih (h.name :: res) res' hb
      · intro x hx
        rcases List.mem_cons.mp hx with rfl | hx2
        · exact hdrop h (List.mem_cons_self _ _)
            (Bool.eq_false_iff.mpr hp)
        · exact hsub x hx2
      · intro h2 hmem hfalse
        exact hdrop h2 (List.mem_cons_of_mem _ hmem) hfalse

/-- Soundness of the scan loop: a computed order is a permutation of the
pending hops and a valid schedule for the initial resolved set. -/
theorem topoSortGo_ok_spec (n : Nat) :
    ∀ (pending : List Hop) (resolved : List String) (out : List Hop),
    pending.length ≤ n → topoSortGo pending resolved = .ok out →
    out.Perm pending ∧ validOrder resolved out := by
  induction n with
  | zero =>
    intro pending resolved out hlen h
    have : pending = [] := List.length_eq_zero.mp (Nat.le_zero.mp hlen)
    subst this
    simp only [topoSortGo, Except.ok.injEq] at h
    subst h
    exact ⟨List.Perm.refl _, trivial⟩
  | succ n ih =>
    intro pending resolved out hlen h
    cases pending with
    | nil =>
      simp only [topoSortGo, Except.ok.injEq] at h
      subst h
      exact ⟨List.Perm.refl _, trivial⟩
    | cons p ps =>
      simp only [topoSortGo] at h
      split at h
      · exact absurd h (by simp)
      · rename_i hs
        cases hrec : topoSortGo (onePass (p :: ps) resolved).2.2
            (onePass (p :: ps) resolved).2.1 with
        | error e => rw [hrec] at h; simp [Except.map] at h
        | ok out2 =>
          rw [hrec] at h
          simp only [Except.map, Except.ok.injEq] at h
          subst h
          have hlen2 := onePass_length (p :: ps) resolved
          have hpos : 0 < (onePass (p :: ps) resolved).1.length := by
            cases hsc : (onePass (p :: ps) resolved).1 with
            | nil => rw [hsc] at hs; exact absurd rfl hs
            | cons a l => simp
          have hle2 : (onePass (p :: ps) resolved).2.2.length ≤ n := by
            simp only [List.length_cons] at hlen2 hlen
            omega
          obtain ⟨hperm2, hvalid2⟩ := ih _ _ _ hle2 hrec
          constructor
          · exact ((hperm2.append_left _).trans (onePass_perm _ _))
          · apply validOrder_append _ _ _ (onePass_sched_valid _ _)
            rw [← onePass_resolved_eq]
            exact hvalid2

/-- The computed order decomposes into rounds, each a sublist of the
pending hops in declaration order. -/
theorem topoSortGo_rounds (n : Nat) :
    ∀ (pending : List Hop) (resolved : List String) (out : List Hop),
    pending.length ≤ n → topoSortGo pending resolved = .ok out →
    ∃ rounds : List (List Hop), out = rounds.flatten ∧
      ∀ r ∈ rounds, r.Sublist pending := by
  induction n with
  | zero =>
    intro pending resolved out hlen h
    have : pending = [] := List.length_eq_zero.mp (Nat.le_zero.mp hlen)
    subst this
    simp only [topoSortGo, Except.ok.injEq] at h
    subst h
    exact ⟨[], rfl, by simp⟩
  | succ n ih =>
    intro pending resolved out hlen h
    cases pending with
    | nil =>
      simp only [topoSortGo, Except.ok.injEq] at h
      subst h
      exact ⟨[], rfl, by simp⟩
    | cons p ps =>
      simp only [topoSortGo] at h
      split at h
      · exact absurd h (by simp)
      · rename_i hs
        cases hrec : topoSortGo (onePass (p :: ps) resolved).2.2
            (onePass (p :: ps) resolved).2.1 with
        | error e => rw [hrec] at h; simp [Except.map] at h
        | ok out2 =>
          rw [hrec] at h
          simp only [Except.map, Except.ok.injEq] at h
          subst h
          have hlen2 := onePass_length (p :: ps) resolved
          have hpos : 0 < (onePass (p :: ps) resolved).1.length := by
            cases hsc : (onePass (p :: ps) resolved).1 with
            | nil => rw [hsc] at hs; exact absurd rfl hs
            | cons a l => simp
          have hle2 : (onePass (p :: ps) resolved).2.2.length ≤ n := by
            simp only [List.length_cons] at hlen2 hlen
            omega
          obtain ⟨rounds2, hflat, hsub⟩ := ih _ _ _ hle2 hrec
          refine ⟨(onePass (p :: ps) resolved).1 :: rounds2, by
            simp [hflat], ?_⟩
          intro r hr
          rcases List.mem_cons.mp hr with rfl | hr2
          · exact onePass_sched_sublist _ _
          · exact (hsub r hr2).trans (onePass_pend_sublist _ _)

/-- Completeness of the scan loop: whenever some topological order of the
pending hops exists (relative to the resolved names), the loop succeeds. -/
theorem topoSortGo_complete (n : Nat) :
    ∀ (pending : List Hop) (resolved : List String),
    pending.length ≤ n → (hopNames pending).Nodup →
    (∃ l, l.Perm pending ∧ validOrder resolved l) →
    ∃ out, topoSortGo pending resolved = .ok out := by
  induction n with
  | zero =>
    intro pending resolved hlen hnd hex
    have : pending = [] := List.length_eq_zero.mp (Nat.le_zero.mp hlen)
    subst this
    exact ⟨[], by simp [topoSortGo]⟩
  | succ n ih =>
    intro pending resolved hlen hnd hex
    cases pending with
    | nil => exact ⟨[], by simp [topoSortGo]⟩
    | cons p ps =>
      obtain ⟨l, hperm, hvalid⟩ := hex
      have hlne : l ≠ [] := by
        intro habs
        subst habs
        exact absurd hperm.symm (by simp)
      cases l with
      | nil => exact absurd rfl hlne
      | cons h0 l2 =>
        obtain ⟨hdeps0, hvalid2⟩ := hvalid
        have hmem0 : h0 ∈ p :: ps := hperm.mem_iff.mp (List.mem_cons_self _ _)
        have hs2 : (onePass (p :: ps) resolved).1 ≠ [] :=
          onePass_sched_nonempty _ _ ⟨h0, hmem0, hdeps0⟩
        have hises : ¬ ((onePass (p :: ps) resolved).1.isEmpty = true) := by
          intro habs
          apply hs2
          cases hsc : (onePass (p :: ps) resolved).1 with
          | nil => rfl
          | cons a l0 => rw [hsc] at habs; simp at habs
        have hpos : 0 < (onePass (p :: ps) resolved).1.length := by
          cases hsc : (onePass (p :: ps) resolved).1 with
          | nil => exact absurd hsc hs2
          | cons a l0 => simp
        have hlen2 := onePass_length (p :: ps) resolved
        have hle2 : (onePass (p :: ps) resolved).2.2.length ≤ n := by
          simp only [List.length_cons] at hlen2 hlen
          omega
        -- names of the split are a permutation of the pending names
        have hnperm : (((onePass (p :: ps) resolved).1 ++
            (onePass (p :: ps) resolved).2.2).map Hop.name).Perm
            (hopNames (p :: ps)) := (onePass_perm _ _).map Hop.name
        have hndsplit : (((onePass (p :: ps) resolved).1 ++
            (onePass (p :: ps) resolved).2.2).map Hop.name).Nodup :=
          (hnperm.nodup_iff).mpr hnd
        rw [List.map_append] at hndsplit
        obtain ⟨ndSched, ndPend, hdisj⟩ := List.nodup_append.mp hndsplit
        -- the filtered witness order for the still-pending hops
        have hlperm : (h0 :: l2).Perm ((onePass (p :: ps) resolved).1 ++
            (onePass (p :: ps) resolved).2.2) :=
          hperm.trans (onePass_perm _ _).symm
        have hfperm := hlperm.filter
          (fun h => decide (h.name ∉ (onePass (p :: ps) resolved).1.map
            Hop.name))
        have hfsched : ((onePass (p :: ps) resolved).1.filter
            (fun h => decide (h.name ∉ (onePass (p :: ps) resolved).1.map
              Hop.name))) = [] := by
          rw [List.filter_eq_nil_iff]
          intro a ha
          simp only [decide_eq_true_eq, not_not]
          exact List.mem_map_of_mem Hop.name ha
        have hfpend : ((onePass (p :: ps) resolved).2.2.filter
            (fun h => decide (h.name ∉ (onePass (p :: ps) resolved).1.map
              Hop.name))) = (onePass (p :: ps) resolved).2.2 := by
          rw [List.filter_eq_self]
          intro a ha
          simp only [decide_eq_true_eq]
          intro habs
          exact hdisj habs (List.mem_map_of_mem Hop.name ha)
        rw [List.filter_append, hfsched, hfpend, List.nil_append] at hfperm
        -- the filtered order is valid for the post-scan resolved set
        have hv0 : validOrder resolved (h0 :: l2) := ⟨hdeps0, hvalid2⟩
        have hfvalid : validOrder (onePass (p :: ps) resolved).2.1
            ((h0 :: l2).filter
              (fun h => decide (h.name ∉ (onePass (p :: ps) resolved).1.map
                Hop.name))) := by
          apply validOrder_filter _ resolved _ _ hv0
          · intro x hx
            rw [onePass_resolved_eq, mem_accNames]
            exact Or.inr hx
          · intro h hmem hfalse
            rw [onePass_resolved_eq, mem_accNames]
            left
            simpa using hfalse
        obtain ⟨out2, hok2⟩ := ih _ _ hle2
          (by
            have : ((onePass (p :: ps) resolved).2.2.map Hop.name).Nodup :=
              ndPend
            simpa [hopNames] using this)
          ⟨_, hfperm, hfvalid⟩
        refine ⟨(onePass (p :: ps) resolved).1 ++ out2, ?_⟩
        simp only [topoSortGo]
        rw [dif_neg hises, hok2]
        rfl

/-- C5: plan construction fails exactly when the hop set is empty, two
hops share a name, a dependency references an undeclared name, or no
topological order exists (a dependency cycle); for every other input
construction succeeds, and no hop is ever executed from a plan whose
construction failed. -/
theorem plan_validation_iff :
    (∀ hops : List Hop, (∃ ordered, mkPlan hops = .ok ordered) ↔
      (hops ≠ [] ∧ (hopNames hops).Nodup ∧ depsKnown hops ∧
        HasTopoOrder hops)) ∧
    (∀ (reg : ToolRegistry) (ctxv : Val) (hops : List Hop)
        (st : Option StateDict) (e : String),
      mkPlan hops = .error e →
      runPlan reg ctxv hops st = ([], .error e)) := by
  constructor
  · intro hops
    constructor
    · rintro ⟨ordered, h⟩
      simp only [mkPlan] at h
      split at h
      · exact absurd h (by simp)
      · rename_i hempty
        split at h
        · exact absurd h (by simp)
        · rename_i hnd2
          split at h
          · exact absurd h (by simp)
          · rename_i hku
            have hne : hops ≠ [] := by
              intro habs
              subst habs
              exact hempty rfl
            have hnd : (hopNames hops).Nodup := not_not.mp hnd2
            have hknown : depsKnown hops := by
              intro hh hmem d hd
              by_contra hdk
              apply hku
              rw [List.any_eq_true]
              exact ⟨hh, hmem, by
                rw [List.any_eq_true]
                exact ⟨d, hd, by simpa using hdk⟩⟩
            obtain ⟨hperm, hvalid⟩ :=
              topoSortGo_ok_spec hops.length hops [] ordered le_rfl h
            exact ⟨hne, hnd, hknown, ordered, hperm, hvalid⟩
    · rintro ⟨hne, hnd, hknown, htopo⟩
      obtain ⟨out, hok⟩ :=
        topoSortGo_complete hops.length hops [] le_rfl hnd htopo
      refine ⟨out, ?_⟩
      simp only [mkPlan]
      rw [if_neg (by
          intro habs
          exact hne (by
            cases hops with
            | nil => rfl
            | cons a l => simp at habs)),
        if_neg (not_not_intro hnd),
        if_neg (by
          intro habs
          rw [List.any_eq_true] at habs
          obtain ⟨hh, hmem, hin⟩ := habs
          rw [List.any_eq_true] at hin
          obtain ⟨d, hd, hdk⟩ := hin
          exact (by simpa using hdk : d ∉ hopNames hops)
            (hknown hh hmem d hd))]
      exact hok
  · intro reg ctxv hops st e h
    simp [runPlan, h]

/-- Concrete instantiation of `plan_validation_iff`: a plan referencing an
unknown dependency fails to construct and executes nothing. -/
theorem plan_validation_iff_witness :
    runPlan [] Val.ctxHandle [⟨"A", "t", [], ["Z"]⟩] none =
      ([], .error "depends on unknown hops") :=
  plan_validation_iff.2 [] Val.ctxHandle [⟨"A", "t", [], ["Z"]⟩] none
    "depends on unknown hops" rfl

/-- A successfully constructed plan's order comes from the scan loop. -/
theorem mkPlan_ok_topoSortGo (hops ordered : List Hop)
    (h : mkPlan hops = .ok ordered) : topoSortGo hops [] = .ok ordered := by
  simp only [mkPlan] at h
  split at h
  · exact absurd h (by simp)
  · split at h
    · exact absurd h (by simp)
    · split at h
      · exact absurd h (by simp)
      · exact h

/-- C6: for every valid plan the computed order is a topological order
(every hop after all hops it depends on, as a permutation of the declared
hops), built round by round with each round a sublist of the declaration
order (stable tie-break: hops eligible in the same scan round are
scheduled in declaration order); in particular
`[A (deps []), B (deps [A]), C (deps [B, A])]` orders as `[A, B, C]`. -/
theorem topo_order_properties :
    (∀ (hops ordered : List Hop), mkPlan hops = .ok ordered →
      ordered.Perm hops ∧ validOrder [] ordered ∧
      ∃ rounds : List (List Hop), ordered = rounds.flatten ∧
        ∀ r ∈ rounds, r.Sublist hops) ∧
    mkPlan [⟨"A", "t", [], []⟩, ⟨"B", "t", [], ["A"]⟩,
        ⟨"C", "t", [], ["B", "A"]⟩] =
      .ok [⟨"A", "t", [], []⟩, ⟨"B", "t", [], ["A"]⟩,
        ⟨"C", "t", [], ["B", "A"]⟩] := by
  constructor
  · intro hops ordered h
    have hts := mkPlan_ok_topoSortGo hops ordered h
    obtain ⟨hperm, hvalid⟩ :=
      topoSortGo_ok_spec hops.length hops [] ordered le_rfl hts
    obtain ⟨rounds, hflat, hsub⟩ :=
      topoSortGo_rounds hops.length hops [] ordered le_rfl hts
    exact ⟨hperm, hvalid, rounds, hflat, hsub⟩
  · simp [mkPlan, hopNames, topoSortGo, onePass, Except.map]

/-- Concrete instantiation of `topo_order_properties` at the three-hop
example plan. -/
theorem topo_order_properties_witness :
    ([⟨"A", "t", [], []⟩, ⟨"B", "t", [], ["A"]⟩,
        ⟨"C", "t", [], ["B", "A"]⟩] : List Hop).Perm
      [⟨"A", "t", [], []⟩, ⟨"B", "t", [], ["A"]⟩,
        ⟨"C", "t", [], ["B", "A"]⟩] ∧
    validOrder [] [⟨"A", "t", [], []⟩, ⟨"B", "t", [], ["A"]⟩,
      ⟨"C", "t", [], ["B", "A"]⟩] ∧
    ∃ rounds : List (List Hop),
      [(⟨"A", "t", [], []⟩ : Hop), ⟨"B", "t", [], ["A"]⟩,
        ⟨"C", "t", [], ["B", "A"]⟩] = rounds.flatten ∧
      ∀ r ∈ rounds, r.Sublist [⟨"A", "t", [], []⟩, ⟨"B", "t", [], ["A"]⟩,
        ⟨"C", "t", [], ["B", "A"]⟩] :=
  topo_order_properties.1 _ _ topo_order_properties.2
